import Mathlib

/-!
Verification of the custom RSA-based secure transport of a remote
database-administration system (server/app/rsa_block.py,
client/app/secure_protocol.py, client/app/socket_client.py,
server/app/main.py).

Byte strings are modelled as `List Nat` (each element a byte value `< 256`;
well-formedness is carried as a hypothesis where a theorem needs it).
Fallible Python code (raising `ValueError`, `OverflowError`, `struct.error`,
`ZeroDivisionError`) is modelled in the `Except String` monad.  Python
while-loops whose progress depends on runtime data are modelled with an
explicit fuel argument bounded by the input length; a fuel of
`input length + 1` always suffices (proved by the fuel-irrelevance lemmas
below), so the fuel-exhaustion branches are unreachable.  The process-wide
random source `secrets.randbelow(255)` is modelled as an explicit stream
`rnds : Nat → Fin 255` of draws, one per produced block.
-/

namespace App

abbrev Bytes := List Nat

deriving instance DecidableEq for Except

/-- Python `int.from_bytes(bs, "big")`. -/
def fromBytesBE (bs : Bytes) : Nat :=
  bs.foldl (fun acc b => acc * 256 + b) 0

/-- Big-endian digits of `v`, exactly `len` bytes (core of `int.to_bytes`). -/
def toBytesBE : Nat → Nat → Bytes
  | 0, _ => []
  | l + 1, v => toBytesBE l (v / 256) ++ [v % 256]

/-- Python `v.to_bytes(len, "big")`: raises `OverflowError` when `v ≥ 256^len`. -/
def toBytes? (len v : Nat) : Except String Bytes :=
  if v < 256 ^ len then .ok (toBytesBE len v) else .error "int too big to convert"

/-- Python `struct.unpack(">I", buf)`: requires exactly 4 bytes. -/
def unpackU32 (buf : Bytes) : Except String Nat :=
  if buf.length = 4 then .ok (fromBytesBE buf) else .error "struct.error"

/-- Fuel-driven helper for `int.bit_length()`; fuel `n` itself suffices
(`bitLenAux_eq_size`). -/
def bitLenAux : Nat → Nat → Nat
  | 0, _ => 0
  | fuel + 1, n => if n = 0 then 0 else bitLenAux fuel (n / 2) + 1

/-- Python `n.bit_length()`. -/
def bitLen (n : Nat) : Nat := bitLenAux n n

/-- Python `_mod_bytes(n) = (n.bit_length() + 7) // 8` (rsa_block.py). -/
def mod_bytes (n : Nat) : Nat := (bitLen n + 7) / 8

/-- Fuel-driven fast modular exponentiation.  This is proof/witness
infrastructure (it lets the kernel evaluate the modular powers appearing in
concrete primality certificates); `powMod_eq` relates it to `a ^ e % p`. -/
def powModAux : Nat → Nat → Nat → Nat → Nat
  | 0, p, _, _ => 1 % p
  | fuel + 1, p, a, e =>
    if e = 0 then 1 % p
    else
      let h := powModAux fuel p (a * a % p) (e / 2)
      if e % 2 = 1 then h * a % p else h

/-- Modular power `a ^ e % p` computed by repeated squaring (kernel-evaluable). -/
def powMod (p a e : Nat) : Nat := powModAux (e + 1) p (a % p) e

/-- The `PublicKey` dataclass of rsa_block.py. -/
structure PublicKey where
  n : Nat
  e : Nat
deriving DecidableEq

/-- The `PrivateKey` dataclass of rsa_block.py. -/
structure PrivateKey where
  n : Nat
  d : Nat
deriving DecidableEq

/-- Python `rsa_encrypt_int(m, pub)`; the Python guard is `m < 0 or m >= pub.n`,
and `m < 0` cannot happen for a natural number. -/
def rsa_encrypt_int (m : Nat) (pub : PublicKey) : Except String Nat :=
  if m < pub.n then .ok (m ^ pub.e % pub.n) else .error "m out of range"

/-- Python `rsa_decrypt_int(c, priv)`. -/
def rsa_decrypt_int (c : Nat) (priv : PrivateKey) : Except String Nat :=
  if c < priv.n then .ok (c ^ priv.d % priv.n) else .error "c out of range"

/-- Fuel-driven `egcd(a, b)` of rsa_block.py (recursing on `(b, a % b)`);
fuel `b + 1` suffices since the second argument strictly decreases.  In every
reachable call the arguments are nonnegative, so Python `//` and `%` agree
with `Nat` division and modulus; the Bezout coefficients live in `Int`. -/
def egcdAux : Nat → Nat → Nat → Int × Int × Int
  | 0, a, _ => ((a : Int), 1, 0)
  | fuel + 1, a, b =>
    if b = 0 then ((a : Int), 1, 0)
    else
      let r := egcdAux fuel b (a % b)
      (r.1, r.2.2, r.2.1 - ((a / b : Nat) : Int) * r.2.2)

/-- Python `egcd(a, b) -> (g, x, y)`. -/
def egcd (a b : Nat) : Int × Int × Int := egcdAux (b + 1) a b

/-- Python `modinv(a, m)`.  Python computes `x % m` after the gcd check; `%` with a
zero modulus raises `ZeroDivisionError`, modelled by the second guard (this
branch is unreachable from `generate_keypair`, whose `phi` is positive). -/
def modinv (a m : Nat) : Except String Nat :=
  if (egcd a m).1 ≠ 1 then .error "No modular inverse"
  else if m = 0 then .error "integer modulo by zero"
  else .ok (((egcd a m).2.1 % (m : Int)).toNat)

/-- Python `generate_keypair(bits, e)` of rsa_block.py, modelled over the stream of
prime pairs drawn by the two `gen_prime` calls of each loop iteration (the
primality of the draws is `gen_prime`'s postcondition and is carried as a
hypothesis by the theorems).  An exhausted stream models the non-terminating
run in which every draw is rejected. -/
def generate_keypair_from (e : Nat) : List (Nat × Nat) → Except String (PublicKey × PrivateKey)
  | [] => .error "out of random draws"
  | (p, q) :: rest =>
    if p = q then generate_keypair_from e rest
    else
      let n := p * q
      let phi := (p - 1) * (q - 1)
      if phi % e = 0 then generate_keypair_from e rest
      else
        match modinv e phi with
        | .error s => .error s
        | .ok d => .ok (⟨n, e⟩, ⟨n, d⟩)

/-- The `while i < len(data)` loop of `encrypt_bytes`, fuel-driven: each
iteration consumes `payload_cap ≥ 1` input bytes (the caller has already
checked `plain_block ≥ 8`), so fuel `|rest| + 1` suffices and the
fuel-exhaustion branch is unreachable.  `idx` numbers the blocks so that the
`idx`-th draw of the random stream is the block's nonce:
`r = secrets.randbelow(255) + 1 ∈ [1, 255]`. -/
def encryptLoopAux (pub : PublicKey) (k plain_block payload_cap : Nat)
    (rand lenPfx : Bool) (rnds : Nat → Fin 255) :
    Nat → Nat → Bytes → Except String Bytes
  | 0, _, _ => .error "loop fuel exhausted"
  | fuel + 1, idx, rest =>
    if rest.isEmpty then .ok []
    else
      let chunk := rest.take payload_cap
      let L := chunk.length
      if L > payload_cap then .error "internal chunk overflow"
      else do
        let lenB ← toBytes? 2 L
        let block := if rand then lenB ++ (((rnds idx).val + 1) :: chunk) else lenB ++ chunk
        let padded := block ++ List.replicate (plain_block - block.length) 0
        let c ← rsa_encrypt_int (fromBytesBE padded) pub
        let cbytes ← toBytes? k c
        let frame ←
          if lenPfx then do
            let lb ← toBytes? 2 cbytes.length
            pure (lb ++ cbytes)
          else pure cbytes
        let tail ← encryptLoopAux pub k plain_block payload_cap rand lenPfx rnds fuel (idx + 1)
          (rest.drop payload_cap)
        pure (frame ++ tail)

/-- Python `encrypt_bytes(data, pub, mode)` of rsa_block.py. -/
def encrypt_bytes (data : Bytes) (pub : PublicKey) (mode : String)
    (rnds : Nat → Fin 255) : Except String Bytes :=
  let k := mod_bytes pub.n
  let plain_block := k - 1
  if plain_block < 8 then .error "RSA modulus too small"
  else if mode = "raw_fixed" ∨ mode = "raw_len" then
    encryptLoopAux pub k plain_block (plain_block - 2) false (mode = "raw_len") rnds
      (data.length + 1) 0 data
  else if mode = "rand_fixed" ∨ mode = "rand_len" then
    encryptLoopAux pub k plain_block (plain_block - 3) true (mode = "rand_len") rnds
      (data.length + 1) 0 data
  else .error "bad mode"

/-- The comprehension `[data[i:i+k] for i in range(0, len(data), k)]`, fuel-driven (the caller
guarantees `k > 0`, under which fuel `|data| + 1` suffices). -/
def splitFixedAux (k : Nat) : Nat → Bytes → List Bytes
  | 0, _ => []
  | fuel + 1, data =>
    if data.isEmpty then [] else data.take k :: splitFixedAux k fuel (data.drop k)

/-- The `while pos < len(data)` framing loop of `decrypt_bytes` for the
`_len` modes, fuel-driven (each iteration consumes at least 2 bytes). -/
def parseLenAux : Nat → Bytes → Except String (List Bytes)
  | 0, _ => .error "loop fuel exhausted"
  | fuel + 1, data =>
    if data.isEmpty then .ok []
    else if data.length < 2 then .error "bad cipher format"
    else
      let blen := fromBytesBE (data.take 2)
      let rest := data.drop 2
      if rest.length < blen then .error "bad cipher format"
      else do
        let tail ← parseLenAux fuel (rest.drop blen)
        pure (rest.take blen :: tail)

/-- The framing stage of `decrypt_bytes`: recover the list of cipher blocks.
Python evaluates `len(data) % k` first, which raises `ZeroDivisionError` for
`k = 0` (modelled by the first guard). -/
def parseBlocks (data : Bytes) (k : Nat) (mode : String) : Except String (List Bytes) :=
  if mode = "raw_fixed" ∨ mode = "rand_fixed" then
    if k = 0 then .error "integer modulo by zero"
    else if data.length % k ≠ 0 then .error "cipher length not aligned"
    else .ok (splitFixedAux k (data.length + 1) data)
  else if mode = "raw_len" ∨ mode = "rand_len" then parseLenAux (data.length + 1) data
  else .error "bad mode"

/-- The per-block body of the `for b in blocks` loop of `decrypt_bytes`.
`L < 0` is impossible since `int.from_bytes` is unsigned, so only the
`L > cap` half of the Python check is live. -/
def decBlock (priv : PrivateKey) (plain_block : Nat) (rand : Bool) (b : Bytes) :
    Except String Bytes := do
  let m ← rsa_decrypt_int (fromBytesBE b) priv
  let p ← toBytes? plain_block m
  let L := fromBytesBE (p.take 2)
  let start := if rand then 3 else 2
  let cap := if rand then plain_block - 3 else plain_block - 2
  if L > cap then .error "bad plaintext length"
  else pure ((p.drop start).take L)

/-- The `for b in blocks` accumulation loop of `decrypt_bytes`. -/
def decBlocks (priv : PrivateKey) (plain_block : Nat) (rand : Bool) :
    List Bytes → Except String Bytes
  | [] => .ok []
  | b :: bs => do
    let part ← decBlock priv plain_block rand b
    let tail ← decBlocks priv plain_block rand bs
    pure (part ++ tail)

/-- Python `decrypt_bytes(data, priv, mode)` of rsa_block.py. -/
def decrypt_bytes (data : Bytes) (priv : PrivateKey) (mode : String) :
    Except String Bytes := do
  let k := mod_bytes priv.n
  let plain_block := k - 1
  let blocks ← parseBlocks data k mode
  decBlocks priv plain_block (mode = "rand_fixed" ∨ mode = "rand_len") blocks

/-- The entry-emitting loop of `_pack_multi_files` (socket_client.py):
`[len:4][bytes]` per blob; `struct.pack(">I", ...)` raises for values
`≥ 2^32`. -/
def packEntries : List Bytes → Except String Bytes
  | [] => .ok []
  | b :: bs => do
    let l ← toBytes? 4 b.length
    let tail ← packEntries bs
    pure (l ++ b ++ tail)

/-- Python `_pack_multi_files(blobs)` (socket_client.py): `[count:4]` then the
entries. -/
def pack_multi_files (blobs : List Bytes) : Except String Bytes := do
  let cnt ← toBytes? 4 blobs.length
  let rest ← packEntries blobs
  pure (cnt ++ rest)

/-- The `for _ in range(count)` loop of `_unpack_multi_files` (main.py),
structural on the declared count; offsets are relative to the remaining
suffix (`off + 4 > len(blob)` iff fewer than 4 bytes remain). -/
def unpackEntriesAux : Nat → Bytes → Except String (List Bytes)
  | 0, _ => .ok []
  | cnt + 1, rest =>
    if rest.length < 4 then .error "bad files blob"
    else
      let n := fromBytesBE (rest.take 4)
      let rest4 := rest.drop 4
      if rest4.length < n then .error "bad files blob"
      else do
        let tail ← unpackEntriesAux cnt (rest4.drop n)
        pure (rest4.take n :: tail)

/-- Python `_unpack_multi_files(blob)` (main.py). -/
def unpack_multi_files (blob : Bytes) : Except String (List Bytes) :=
  if blob.length < 4 then .error "bad files blob"
  else unpackEntriesAux (fromBytesBE (blob.take 4)) (blob.drop 4)

/-- Python `pack_pickle_bin(header_obj, bin_data)` (secure_protocol.py), with the
pickle serializer abstracted as `dumps`. -/
def pack_pickle_bin {α : Type} (dumps : α → Bytes) (header : α) (bin : Bytes) :
    Except String Bytes := do
  let h := dumps header
  let hl ← toBytes? 4 h.length
  let bl ← toBytes? 4 bin.length
  pure (hl ++ h ++ bl ++ bin)

/-- Python `unpack_pickle_bin(packet)` (secure_protocol.py), with `pickle.loads`
abstracted as `loads`.  Python slicing clamps, so the header slice and the
final payload slice may be shorter than the declared lengths; only
`struct.unpack` insists on exactly 4 bytes. -/
def unpack_pickle_bin {α : Type} (loads : Bytes → Except String α) (packet : Bytes) :
    Except String (α × Bytes) := do
  let hlen ← unpackU32 (packet.take 4)
  let header ← loads ((packet.drop 4).take hlen)
  let blen ← unpackU32 ((packet.drop (4 + hlen)).take 4)
  let b := (packet.drop (4 + hlen + 4)).take blen
  pure (header, b)

/-- Scalar leaves of a Wire Message (a pickled/JSON dict as far as the
handshake code inspects it). -/
inductive WireVal where
  | bool (b : Bool)
  | str (s : String)
  | int (n : Nat)
  | bytes (bs : Bytes)
  | pk (key : PublicKey)
deriving DecidableEq

/-- A Wire Message restricted to one level of string keys, which is all the
connection-handling code of main.py inspects. -/
abbrev WireMsg := List (String × WireVal)

/-- Python `msg.get(key)`: `None` when the key is absent. -/
def getField (m : WireMsg) (key : String) : Option WireVal :=
  (m.find? (fun kv => kv.1 == key)).map (fun kv => kv.2)

/-- Observable actions of one accepted connection of `serve` /
`serve_upload` (main.py): plaintext frame sent, decrypt attempted on the
connection's second frame, encrypted frame sent. -/
inductive ServeEvent where
  | sentPlain (msg : WireMsg)
  | decrypted
  | sentEncrypted
deriving DecidableEq

/-- The reply `{"ok": False, "error": "expected hello"}`. -/
def expectedHelloErr : WireMsg := [("ok", .bool false), ("error", .str "expected hello")]

/-- The reply `{"ok": True, "type": "hello_ack", "pub": ...}`. -/
def helloAck (myPub : PublicKey) : WireMsg :=
  [("ok", .bool true), ("type", .str "hello_ack"), ("pub", .pk myPub)]

/-- The reply `{"ok": False, "error": e}`. -/
def errObj (e : String) : WireMsg := [("ok", .bool false), ("error", .str e)]

/-- Best-effort encrypted reply: the reply inside the `except` handler is
itself wrapped in `try ... except: pass`, so a failing encryption sends
nothing. -/
def encReply (cpub : PublicKey) (mode : String) (rnds : Nat → Fin 255)
    (dumps : WireMsg → Bytes) (msg : WireMsg) : List ServeEvent :=
  match encrypt_bytes (dumps msg) cpub mode rnds with
  | .ok _ => [.sentEncrypted]
  | .error _ => []

/-- One accepted connection of `serve` (main.py): the first frame is already
parsed (`recv_msg`), the second frame's payload is `second`; `handle` is the
opaque application dispatcher; `loads`/`dumps` abstract pickle. -/
def serveConn (mode : String) (priv : PrivateKey) (myPub : PublicKey)
    (loads : Bytes → Except String WireMsg) (dumps : WireMsg → Bytes)
    (handle : WireMsg → Except String WireMsg) (rnds : Nat → Fin 255)
    (first : WireMsg) (second : Bytes) : List ServeEvent :=
  if getField first "type" ≠ some (.str "hello") then
    [.sentPlain expectedHelloErr]
  else
    match getField first "pub" with
    | some (.pk cpub) =>
      .sentPlain (helloAck myPub) :: .decrypted ::
        (match (decrypt_bytes second priv mode).bind loads with
         | .error e => encReply cpub mode rnds dumps (errObj e)
         | .ok req =>
           match handle req with
           | .error e => encReply cpub mode rnds dumps (errObj e)
           | .ok resp => encReply cpub mode rnds dumps resp)
    | _ =>
      -- `hello["pub"]` raised (missing / malformed key) with `client_pub`
      -- still None: the except handler falls back to a plaintext error.
      [.sentPlain (errObj "bad hello")]

/-- One accepted connection of `serve_upload` (main.py): identical handshake
guard; the request is a binary packet (`recv_encrypted_bin`), the upload
dispatch is opaque. -/
def serveUploadConn (mode : String) (priv : PrivateKey) (myPub : PublicKey)
    (loads : Bytes → Except String WireMsg) (dumps : WireMsg → Bytes)
    (uploadHandle : WireMsg → Bytes → Except String WireMsg) (rnds : Nat → Fin 255)
    (first : WireMsg) (second : Bytes) : List ServeEvent :=
  if getField first "type" ≠ some (.str "hello") then
    [.sentPlain expectedHelloErr]
  else
    match getField first "pub" with
    | some (.pk cpub) =>
      .sentPlain (helloAck myPub) :: .decrypted ::
        (match (decrypt_bytes second priv mode).bind (unpack_pickle_bin loads) with
         | .error e => encReply cpub mode rnds dumps (errObj e)
         | .ok hd =>
           match uploadHandle hd.1 hd.2 with
           | .error e => encReply cpub mode rnds dumps (errObj e)
           | .ok resp => encReply cpub mode rnds dumps resp)
    | _ => [.sentPlain (errObj "bad hello")]

/-- A constant stream of random draws (used to instantiate theorems at
concrete inputs). -/
def constRnd (v : Fin 255) : Nat → Fin 255 := fun _ => v

/-- The padded plaintext block `[len:2][rand?:1][payload][zero pad]` that
`encrypt_bytes` assembles for one chunk (named here so that theorems can
speak about the block structure of the output). -/
def plainBlockOf (pb : Nat) (rand : Bool) (r : Nat) (chunk : Bytes) : Bytes :=
  (toBytesBE 2 chunk.length ++ ((if rand then [r] else []) ++ chunk)) ++
    List.replicate
      (pb - (toBytesBE 2 chunk.length ++ ((if rand then [r] else []) ++ chunk)).length) 0

/-- The `k`-byte cipher block `m ^ e mod n` that `encrypt_bytes` emits for
one chunk. -/
def cipherBlockOf (n e k pb : Nat) (rand : Bool) (r : Nat) (chunk : Bytes) : Bytes :=
  toBytesBE k (fromBytesBE (plainBlockOf pb rand r chunk) ^ e % n)

/-- Whether a mode draws a nonce byte (the `rand` flag of the source's mode
dispatch). -/
def mode_rand (mode : String) : Bool := mode = "rand_fixed" ∨ mode = "rand_len"

/-- Whether a mode prefixes each cipher block with a 2-byte length. -/
def mode_len (mode : String) : Bool := mode = "raw_len" ∨ mode = "rand_len"

/-- The `payload_cap` of the source's mode dispatch: usable payload bytes per
block. -/
def payload_cap (n : Nat) (mode : String) : Nat :=
  if mode = "rand_fixed" ∨ mode = "rand_len" then mod_bytes n - 1 - 3
  else mod_bytes n - 1 - 2

/-! ### Byte-string lemmas -/

theorem fromBytesBE_nil : fromBytesBE [] = 0 := rfl

theorem foldl_byte_acc (bs : Bytes) (acc : Nat) :
    bs.foldl (fun a b => a * 256 + b) acc =
      acc * 256 ^ bs.length + bs.foldl (fun a b => a * 256 + b) 0 := by
  induction bs generalizing acc with
  | nil => simp
  | cons c t ih =>
    simp only [List.foldl_cons, List.length_cons]
    rw [ih (acc * 256 + c), ih (0 * 256 + c)]
    ring

theorem fromBytesBE_cons (c : Nat) (t : Bytes) :
    fromBytesBE (c :: t) = c * 256 ^ t.length + fromBytesBE t := by
  show (c :: t).foldl (fun a b => a * 256 + b) 0 = _
  rw [List.foldl_cons, foldl_byte_acc t (0 * 256 + c)]
  unfold fromBytesBE
  ring

theorem fromBytesBE_singleton (c : Nat) : fromBytesBE [c] = c := by
  rw [fromBytesBE_cons, fromBytesBE_nil]
  simp

theorem fromBytesBE_append (xs ys : Bytes) :
    fromBytesBE (xs ++ ys) = fromBytesBE xs * 256 ^ ys.length + fromBytesBE ys := by
  induction xs with
  | nil => simp [fromBytesBE_nil]
  | cons c t ih =>
    simp only [List.cons_append, fromBytesBE_cons, List.length_append, ih]
    rw [pow_add]
    ring

theorem fromBytesBE_lt (bs : Bytes) (h : ∀ b ∈ bs, b < 256) :
    fromBytesBE bs < 256 ^ bs.length := by
  induction bs with
  | nil => simp [fromBytesBE_nil]
  | cons c t ih =>
    rw [fromBytesBE_cons, List.length_cons]
    have hc : c < 256 := h c (by simp)
    have ht : fromBytesBE t < 256 ^ t.length := ih (fun b hb => h b (by simp [hb]))
    have hX : (0:Nat) < 256 ^ t.length := pow_pos (by norm_num) _
    calc c * 256 ^ t.length + fromBytesBE t
        < (c + 1) * 256 ^ t.length := by nlinarith
      _ ≤ 256 * 256 ^ t.length := Nat.mul_le_mul_right _ (by omega)
      _ = 256 ^ (t.length + 1) := by rw [pow_succ]; ring

theorem toBytesBE_length (l v : Nat) : (toBytesBE l v).length = l := by
  induction l generalizing v with
  | zero => rfl
  | succ l ih => simp [toBytesBE, ih]

theorem toBytesBE_mem_lt (l v : Nat) : ∀ b ∈ toBytesBE l v, b < 256 := by
  induction l generalizing v with
  | zero => simp [toBytesBE]
  | succ l ih =>
    intro b hb
    simp only [toBytesBE, List.mem_append, List.mem_singleton] at hb
    rcases hb with h | h
    · exact ih _ b h
    · subst h; exact Nat.mod_lt _ (by norm_num)

theorem fromBytesBE_toBytesBE (l v : Nat) (h : v < 256 ^ l) :
    fromBytesBE (toBytesBE l v) = v := by
  induction l generalizing v with
  | zero =>
    have : v = 0 := by simpa using h
    simp [this, toBytesBE, fromBytesBE_nil]
  | succ l ih =>
    have hdiv : v / 256 < 256 ^ l := by
      rw [pow_succ] at h
      omega
    simp only [toBytesBE]
    rw [fromBytesBE_append, fromBytesBE_singleton, ih _ hdiv]
    simp only [List.length_cons, List.length_nil, pow_one]
    omega

theorem toBytesBE_fromBytesBE (bs : Bytes) (h : ∀ b ∈ bs, b < 256) :
    toBytesBE bs.length (fromBytesBE bs) = bs := by
  induction bs using List.reverseRecOn with
  | nil => rfl
  | append_singleton xs x ih =>
    have hx : x < 256 := h x (by simp)
    have hxs : ∀ b ∈ xs, b < 256 := fun b hb => h b (by simp [hb])
    rw [fromBytesBE_append, fromBytesBE_singleton]
    simp only [List.length_append, List.length_cons, List.length_nil, pow_one]
    show toBytesBE (xs.length + 1) (fromBytesBE xs * 256 + x) = xs ++ [x]
    simp only [toBytesBE]
    have hdiv : (fromBytesBE xs * 256 + x) / 256 = fromBytesBE xs := by omega
    have hmod : (fromBytesBE xs * 256 + x) % 256 = x := by omega
    rw [hdiv, hmod, ih hxs]

/-! ### Bit length -/

theorem bitLenAux_zero (fuel : Nat) : bitLenAux fuel 0 = 0 := by
  cases fuel <;> simp [bitLenAux]

theorem bitLenAux_lt (fuel n : Nat) (h : n ≤ fuel) : n < 2 ^ bitLenAux fuel n := by
  induction fuel generalizing n with
  | zero =>
    have : n = 0 := by omega
    simp [this, bitLenAux_zero]
  | succ f ih =>
    by_cases h0 : n = 0
    · simp [h0, bitLenAux_zero]
    · simp only [bitLenAux, if_neg h0]
      have hf : n / 2 ≤ f := by omega
      have := ih (n / 2) hf
      rw [pow_succ]
      omega

theorem bitLenAux_le (fuel n : Nat) (h : n ≤ fuel) (h0 : n ≠ 0) :
    2 ^ (bitLenAux fuel n - 1) ≤ n := by
  induction fuel generalizing n with
  | zero => omega
  | succ f ih =>
    simp only [bitLenAux, if_neg h0, Nat.add_sub_cancel]
    by_cases h2 : n / 2 = 0
    · rw [h2, bitLenAux_zero]
      simpa using Nat.one_le_iff_ne_zero.mpr h0
    · have hf : n / 2 ≤ f := by omega
      have hrec := ih (n / 2) hf h2
      have hpow : 2 ^ bitLenAux f (n / 2) = 2 ^ (bitLenAux f (n / 2) - 1) * 2 := by
        have hb : 1 ≤ bitLenAux f (n / 2) := by
          cases f with
          | zero => omega
          | succ g => simp only [bitLenAux, if_neg h2]; omega
        conv_lhs => rw [show bitLenAux f (n / 2) = (bitLenAux f (n / 2) - 1) + 1 by omega]
        rw [pow_succ]
      rw [hpow]
      omega

theorem bitLen_lt (n : Nat) : n < 2 ^ bitLen n := bitLenAux_lt n n le_rfl

theorem bitLen_le (n : Nat) (h : n ≠ 0) : 2 ^ (bitLen n - 1) ≤ n :=
  bitLenAux_le n n le_rfl h

theorem bitLen_pos (n : Nat) (h : n ≠ 0) : 1 ≤ bitLen n := by
  rcases Nat.eq_zero_or_pos (bitLen n) with h0 | h1
  · have := bitLen_lt n
    rw [h0] at this
    omega
  · exact h1

theorem mod_bytes_upper (n : Nat) : n < 256 ^ mod_bytes n := by
  have h1 : bitLen n ≤ 8 * mod_bytes n := by
    unfold mod_bytes
    omega
  calc n < 2 ^ bitLen n := bitLen_lt n
    _ ≤ 2 ^ (8 * mod_bytes n) := Nat.pow_le_pow_right (by norm_num) h1
    _ = 256 ^ mod_bytes n := by rw [pow_mul]; norm_num

theorem mod_bytes_lower (n : Nat) (h : n ≠ 0) : 256 ^ (mod_bytes n - 1) ≤ n := by
  have hL : 1 ≤ bitLen n := bitLen_pos n h
  have h1 : 8 * (mod_bytes n - 1) ≤ bitLen n - 1 := by
    unfold mod_bytes
    omega
  calc (256:Nat) ^ (mod_bytes n - 1) = 2 ^ (8 * (mod_bytes n - 1)) := by rw [pow_mul]; norm_num
    _ ≤ 2 ^ (bitLen n - 1) := Nat.pow_le_pow_right (by norm_num) h1
    _ ≤ n := bitLen_le n h

theorem mod_bytes_pos (n : Nat) (h : n ≠ 0) : 1 ≤ mod_bytes n := by
  have := bitLen_pos n h
  unfold mod_bytes
  omega

/-! ### Modular exponentiation and primality certificates -/

theorem powModAux_eq (p : Nat) :
    ∀ fuel a e, e < fuel → powModAux fuel p a e = a ^ e % p := by
  intro fuel
  induction fuel with
  | zero => omega
  | succ f ih =>
    intro a e he
    by_cases h0 : e = 0
    · simp [h0, powModAux, pow_zero]
    · simp only [powModAux, if_neg h0]
      have he2 : e / 2 < f := by omega
      rw [ih (a * a % p) (e / 2) he2]
      have hsq : (a * a % p) ^ (e / 2) % p = (a * a) ^ (e / 2) % p := by
        rw [← Nat.pow_mod]
      by_cases hodd : e % 2 = 1
      · simp only [if_pos hodd]
        calc (a * a % p) ^ (e / 2) % p * a % p
            = (a * a) ^ (e / 2) % p * a % p := by rw [hsq]
          _ = (a * a) ^ (e / 2) * a % p := (Nat.mod_modEq _ p).mul_right a
          _ = a ^ e % p := by
              conv_rhs => rw [show e = 2 * (e / 2) + 1 by omega]
              rw [pow_succ, pow_mul, ← pow_two]
      · simp only [if_neg hodd]
        rw [hsq]
        conv_rhs => rw [show e = 2 * (e / 2) by omega]
        rw [pow_mul, ← pow_two]

theorem powMod_eq (p a e : Nat) : powMod p a e = a ^ e % p := by
  unfold powMod
  rw [powModAux_eq p (e + 1) (a % p) e (by omega), ← Nat.pow_mod]

/-- Lucas/Pratt primality certificate, checkable by kernel evaluation of
`powMod` on the certificate data. -/
theorem prime_of_pratt (p g : Nat) (qs : List Nat) (hp : 1 < p)
    (hfac : ∀ r : Nat, r.Prime → r ∣ (p - 1) → r ∈ qs)
    (h1 : powMod p g (p - 1) = 1)
    (h2 : ∀ r ∈ qs, powMod p g ((p - 1) / r) ≠ 1) : p.Prime := by
  refine lucas_primality p (g : ZMod p) ?_ ?_
  · have hcast : ((g ^ (p - 1) % p : Nat) : ZMod p) = ((1 : Nat) : ZMod p) := by
      rw [← powMod_eq p g (p - 1), h1]
    rwa [ZMod.natCast_mod, Nat.cast_pow, Nat.cast_one] at hcast
  · intro r hr hdvd hcon
    refine h2 r (hfac r hr hdvd) ?_
    rw [powMod_eq p g _]
    have hcast : ((g ^ ((p - 1) / r) % p : Nat) : ZMod p) = ((1 : Nat) : ZMod p) := by
      rw [ZMod.natCast_mod, Nat.cast_pow, Nat.cast_one]
      exact hcon
    have hmod : g ^ ((p - 1) / r) % p % p = 1 % p :=
      (ZMod.natCast_eq_natCast_iff _ _ _).mp hcast
    rw [Nat.mod_mod_of_dvd _ dvd_rfl] at hmod
    rw [hmod]
    exact Nat.mod_eq_of_lt hp

/-! ### RSA correctness -/

theorem pow_totient_step (pr : Nat) (hpr : pr.Prime) (c m : Nat) :
    m ^ (c * (pr - 1) + 1) ≡ m [MOD pr] := by
  haveI : Fact pr.Prime := ⟨hpr⟩
  have key : ((m : ZMod pr)) ^ (c * (pr - 1) + 1) = (m : ZMod pr) := by
    by_cases hz : (m : ZMod pr) = 0
    · rw [hz, zero_pow (by omega : c * (pr - 1) + 1 ≠ 0)]
    · calc ((m : ZMod pr)) ^ (c * (pr - 1) + 1)
          = ((m : ZMod pr) ^ (pr - 1)) ^ c * (m : ZMod pr) := by
            rw [pow_add, pow_one, mul_comm c, pow_mul]
        _ = (m : ZMod pr) := by rw [ZMod.pow_card_sub_one_eq_one hz, one_pow, one_mul]
  refine (ZMod.natCast_eq_natCast_iff _ _ _).mp ?_
  push_cast
  exact key

theorem rsa_exponent_identity (p q e d m : Nat) (hp : p.Prime) (hq : q.Prime)
    (hpq : p ≠ q) (hed : (e * d) % ((p - 1) * (q - 1)) = 1) :
    m ^ (e * d) % (p * q) = m % (p * q) := by
  have hsplit : e * d = (p - 1) * (q - 1) * ((e * d) / ((p - 1) * (q - 1))) + 1 := by
    conv_lhs => rw [← Nat.div_add_mod (e * d) ((p - 1) * (q - 1))]
    rw [hed]
  set t := (e * d) / ((p - 1) * (q - 1)) with ht
  have hmp : m ^ (e * d) ≡ m [MOD p] := by
    have hre : e * d = t * (q - 1) * (p - 1) + 1 := by rw [hsplit]; ring
    rw [hre]
    exact pow_totient_step p hp (t * (q - 1)) m
  have hmq : m ^ (e * d) ≡ m [MOD q] := by
    have hre : e * d = t * (p - 1) * (q - 1) + 1 := by rw [hsplit]; ring
    rw [hre]
    exact pow_totient_step q hq (t * (p - 1)) m
  have hco : Nat.Coprime p q := (Nat.coprime_primes hp hq).mpr hpq
  exact (Nat.modEq_and_modEq_iff_modEq_mul hco).mp ⟨hmp, hmq⟩

/-! ### Extended gcd, modular inverse, key generation -/

theorem egcdAux_spec :
    ∀ fuel a b, b < fuel →
      (egcdAux fuel a b).1 = (Nat.gcd a b : Int) ∧
      (a : Int) * (egcdAux fuel a b).2.1 + (b : Int) * (egcdAux fuel a b).2.2 =
        (egcdAux fuel a b).1 := by
  intro fuel
  induction fuel with
  | zero => omega
  | succ f ih =>
    intro a b hbf
    by_cases hb0 : b = 0
    · subst hb0
      simp [egcdAux, Nat.gcd_zero_right]
    · simp only [egcdAux, if_neg hb0]
      have hmod : a % b < f := by
        have h1 : a % b < b := Nat.mod_lt a (by omega)
        omega
      obtain ⟨h1, h2⟩ := ih b (a % b) hmod
      have hgcd : Nat.gcd b (a % b) = Nat.gcd a b := by
        rw [Nat.gcd_comm b (a % b), ← Nat.gcd_rec b a, Nat.gcd_comm b a]
      refine ⟨?_, ?_⟩
      · rw [h1, hgcd]
      · have hcast : ((a % b : Nat) : Int) = (a : Int) - (b : Int) * ((a / b : Nat) : Int) := by
          have h := Nat.mod_add_div a b
          have h' := congrArg (fun z : Nat => (z : Int)) h
          push_cast at h' ⊢
          linarith
        rw [hcast] at h2
        rw [h1] at h2 ⊢
        linear_combination h2

theorem egcd_spec (a b : Nat) :
    (egcd a b).1 = (Nat.gcd a b : Int) ∧
    (a : Int) * (egcd a b).2.1 + (b : Int) * (egcd a b).2.2 = (egcd a b).1 :=
  egcdAux_spec (b + 1) a b (by omega)

theorem modinv_ok_facts (a m d : Nat) (hm : 1 < m) (h : modinv a m = .ok d) :
    d < m ∧ (a * d) % m = 1 := by
  obtain ⟨h1, h2⟩ := egcd_spec a m
  unfold modinv at h
  by_cases hg : (egcd a m).1 ≠ 1
  · simp [if_pos hg] at h
  · rw [if_neg hg, if_neg (by omega : ¬ m = 0)] at h
    injection h with hd
    set x := (egcd a m).2.1 with hx
    set y := (egcd a m).2.2 with hy
    have hbez : (a : Int) * x + (m : Int) * y = 1 := by
      rw [h2, not_not.mp hg]
    have hm0 : (0 : Int) < (m : Int) := by exact_mod_cast (by omega : 0 < m)
    have hge : 0 ≤ x % (m : Int) := Int.emod_nonneg x (ne_of_gt hm0)
    have hlt : x % (m : Int) < (m : Int) := Int.emod_lt_of_pos x hm0
    have hdint : (((x % (m : Int))).toNat : Int) = x % (m : Int) := Int.toNat_of_nonneg hge
    constructor
    · omega
    · have step1 : ((a : Int) * (x % (m : Int))) % (m : Int) = ((a : Int) * x) % (m : Int) := by
        conv_lhs => rw [Int.mul_emod]
        conv_rhs => rw [Int.mul_emod]
        rw [Int.emod_emod_of_dvd _ dvd_rfl]
      have step2 : ((a : Int) * x) % (m : Int) = 1 := by
        have hax : (a : Int) * x = 1 - (m : Int) * y := by linarith
        rw [hax, Int.sub_emod, Int.mul_emod_right, sub_zero,
          Int.emod_emod_of_dvd _ dvd_rfl]
        exact Int.emod_eq_of_lt (by norm_num) (by exact_mod_cast hm)
      have hfin : (((a * d) % m : Nat) : Int) = 1 := by
        calc (((a * d) % m : Nat) : Int)
            = ((a * d : Nat) : Int) % (m : Int) := by push_cast; ring_nf
          _ = (a : Int) * ((d : Nat) : Int) % (m : Int) := by push_cast; ring_nf
          _ = (a : Int) * (x % (m : Int)) % (m : Int) := by rw [← hd, hdint]
          _ = 1 := by rw [step1, step2]
      exact_mod_cast hfin

theorem generate_keypair_reject_eq (e p : Nat) (rest : List (Nat × Nat)) :
    generate_keypair_from e ((p, p) :: rest) = generate_keypair_from e rest := by
  simp [generate_keypair_from]

theorem generate_keypair_reject_phi (e p q : Nat) (rest : List (Nat × Nat))
    (h : ((p - 1) * (q - 1)) % e = 0) :
    generate_keypair_from e ((p, q) :: rest) = generate_keypair_from e rest := by
  by_cases hpq : p = q
  · simp [generate_keypair_from, hpq]
  · simp [generate_keypair_from, hpq, h]

theorem generate_keypair_ok (e : Nat) (draws : List (Nat × Nat))
    (pub : PublicKey) (priv : PrivateKey)
    (hprime : ∀ pq ∈ draws, Nat.Prime pq.1 ∧ Nat.Prime pq.2)
    (h : generate_keypair_from e draws = .ok (pub, priv)) :
    ∃ p q, (p, q) ∈ draws ∧ Nat.Prime p ∧ Nat.Prime q ∧ p ≠ q ∧
      pub.n = p * q ∧ priv.n = p * q ∧ pub.e = e ∧
      ((p - 1) * (q - 1)) % e ≠ 0 ∧
      priv.d < (p - 1) * (q - 1) ∧ (e * priv.d) % ((p - 1) * (q - 1)) = 1 := by
  induction draws with
  | nil => simp [generate_keypair_from] at h
  | cons pq rest ih =>
    obtain ⟨p, q⟩ := pq
    have htail : ∀ x ∈ rest, Nat.Prime x.1 ∧ Nat.Prime x.2 :=
      fun x hx => hprime x (by simp [hx])
    simp only [generate_keypair_from] at h
    by_cases hpq : p = q
    · rw [if_pos hpq] at h
      obtain ⟨p', q', hmem, hrest⟩ := ih htail h
      exact ⟨p', q', by simp [hmem], hrest⟩
    · rw [if_neg hpq] at h
      by_cases hphi : ((p - 1) * (q - 1)) % e = 0
      · rw [if_pos hphi] at h
        obtain ⟨p', q', hmem, hrest⟩ := ih htail h
        exact ⟨p', q', by simp [hmem], hrest⟩
      · rw [if_neg hphi] at h
        obtain ⟨hp, hq⟩ := hprime (p, q) (by simp)
        have hphi2 : 2 ≤ (p - 1) * (q - 1) := by
          have hp2 := hp.two_le
          have hq2 := hq.two_le
          rcases eq_or_ne p 2 with h2 | h2
          · have hq3 : 3 ≤ q := by
              rcases eq_or_ne q 2 with h3 | h3
              · omega
              · have := hq.two_le
                omega
            calc 2 = 1 * 2 := by norm_num
              _ ≤ (p - 1) * (q - 1) := Nat.mul_le_mul (by omega) (by omega)
          · have hp3 : 3 ≤ p := by omega
            calc 2 = 2 * 1 := by norm_num
              _ ≤ (p - 1) * (q - 1) := Nat.mul_le_mul (by omega) (by omega)
        rcases hmv : modinv e ((p - 1) * (q - 1)) with s | d
        · rw [hmv] at h
          cases h
        · rw [hmv] at h
          injection h with h'
          injection h' with hpub hpriv
          obtain ⟨hd1, hd2⟩ := modinv_ok_facts e ((p - 1) * (q - 1)) d hphi2 hmv
          refine ⟨p, q, by simp, hp, hq, hpq, ?_, ?_, ?_, hphi, ?_, ?_⟩
          · rw [← hpub]
          · rw [← hpriv]
          · rw [← hpub]
          · rw [← hpriv]; exact hd1
          · rw [← hpriv]; exact hd2

/-! ### Concrete primality certificates for the witness key -/

theorem prime_4687500001 : Nat.Prime 4687500001 := by
  refine prime_of_pratt 4687500001 11 [2, 3, 5] (by norm_num) ?_ (by decide) (by decide)
  intro r hr hdvd
  rw [show (4687500001 - 1 : Nat) = 2 ^ 5 * (3 * 5 ^ 11) by norm_num] at hdvd
  rcases (Nat.Prime.dvd_mul hr).mp hdvd with h | h
  · have h2 : r ∣ 2 := Nat.Prime.dvd_of_dvd_pow hr h
    have : r = 2 := (Nat.prime_dvd_prime_iff_eq hr Nat.prime_two).mp h2
    simp [this]
  · rcases (Nat.Prime.dvd_mul hr).mp h with h3 | h5
    · have : r = 3 := (Nat.prime_dvd_prime_iff_eq hr Nat.prime_three).mp h3
      simp [this]
    · have h5' : r ∣ 5 := Nat.Prime.dvd_of_dvd_pow hr h5
      have : r = 5 := (Nat.prime_dvd_prime_iff_eq hr (by norm_num)).mp h5'
      simp [this]

theorem prime_4782969001 : Nat.Prime 4782969001 := by
  refine prime_of_pratt 4782969001 7 [2, 3, 5] (by norm_num) ?_ (by decide) (by decide)
  intro r hr hdvd
  rw [show (4782969001 - 1 : Nat) = 2 ^ 3 * (3 ^ 14 * 5 ^ 3) by norm_num] at hdvd
  rcases (Nat.Prime.dvd_mul hr).mp hdvd with h | h
  · have h2 : r ∣ 2 := Nat.Prime.dvd_of_dvd_pow hr h
    have : r = 2 := (Nat.prime_dvd_prime_iff_eq hr Nat.prime_two).mp h2
    simp [this]
  · rcases (Nat.Prime.dvd_mul hr).mp h with h3 | h5
    · have h3' : r ∣ 3 := Nat.Prime.dvd_of_dvd_pow hr h3
      have : r = 3 := (Nat.prime_dvd_prime_iff_eq hr Nat.prime_three).mp h3'
      simp [this]
    · have h5' : r ∣ 5 := Nat.Prime.dvd_of_dvd_pow hr h5
      have : r = 5 := (Nat.prime_dvd_prime_iff_eq hr (by norm_num)).mp h5'
      simp [this]
/-! ### Definitional unfoldings of the fuel-driven loops -/

theorem ok_bind {α β : Type} (a : α) (f : α → Except String β) :
    (Except.ok a : Except String α) >>= f = f a := rfl

theorem ok_bind' {α β : Type} (a : α) (f : α → Except String β) :
    (Except.ok a : Except String α).bind f = f a := rfl

theorem splitFixedAux_cons (k f : Nat) (b : Nat) (t : Bytes) :
    splitFixedAux k (f + 1) (b :: t) =
      (b :: t).take k :: splitFixedAux k f ((b :: t).drop k) := rfl

theorem parseLenAux_cons (f : Nat) (b : Nat) (t : Bytes) :
    parseLenAux (f + 1) (b :: t) =
      (if (b :: t).length < 2 then .error "bad cipher format"
       else if ((b :: t).drop 2).length < fromBytesBE ((b :: t).take 2) then
         .error "bad cipher format"
       else do
         let tail ← parseLenAux f (((b :: t).drop 2).drop (fromBytesBE ((b :: t).take 2)))
         pure (((b :: t).drop 2).take (fromBytesBE ((b :: t).take 2)) :: tail)) := rfl

theorem encryptLoopAux_cons (pub : PublicKey) (k pb cap : Nat) (rand lenPfx : Bool)
    (rnds : Nat → Fin 255) (f idx : Nat) (b : Nat) (t : Bytes) :
    encryptLoopAux pub k pb cap rand lenPfx rnds (f + 1) idx (b :: t) =
      (if ((b :: t).take cap).length > cap then .error "internal chunk overflow"
       else do
         let lenB ← toBytes? 2 ((b :: t).take cap).length
         let block := if rand then lenB ++ (((rnds idx).val + 1) :: (b :: t).take cap)
           else lenB ++ (b :: t).take cap
         let padded := block ++ List.replicate (pb - block.length) 0
         let c2 ← rsa_encrypt_int (fromBytesBE padded) pub
         let cbytes ← toBytes? k c2
         let frame ←
           if lenPfx then do
             let lb ← toBytes? 2 cbytes.length
             pure (lb ++ cbytes)
           else pure cbytes
         let tail ← encryptLoopAux pub k pb cap rand lenPfx rnds f (idx + 1) ((b :: t).drop cap)
         pure (frame ++ tail)) := rfl

/-! ### Fuel irrelevance of the loop embeddings -/

theorem splitFixedAux_fuel (k : Nat) (hk : 0 < k) :
    ∀ f₁ f₂ (data : Bytes), data.length < f₁ → data.length < f₂ →
      splitFixedAux k f₁ data = splitFixedAux k f₂ data := by
  intro f₁
  induction f₁ with
  | zero => intro f₂ data h1 _; omega
  | succ g ih =>
    intro f₂ data h1 h2
    cases f₂ with
    | zero => omega
    | succ g2 =>
      cases data with
      | nil => rfl
      | cons b t =>
        rw [splitFixedAux_cons, splitFixedAux_cons]
        congr 1
        have hdl : ((b :: t).drop k).length = (t.length + 1) - k := by
          simp [List.length_drop]
        simp only [List.length_cons] at h1 h2
        apply ih
        · omega
        · omega

theorem parseLenAux_fuel :
    ∀ f₁ f₂ (data : Bytes), data.length < f₁ → data.length < f₂ →
      parseLenAux f₁ data = parseLenAux f₂ data := by
  intro f₁
  induction f₁ with
  | zero => intro f₂ data h1 _; omega
  | succ g ih =>
    intro f₂ data h1 h2
    cases f₂ with
    | zero => omega
    | succ g2 =>
      cases data with
      | nil => rfl
      | cons b t =>
        rw [parseLenAux_cons, parseLenAux_cons]
        by_cases hA : (b :: t).length < 2
        · rw [if_pos hA, if_pos hA]
        · rw [if_neg hA, if_neg hA]
          by_cases hB : ((b :: t).drop 2).length < fromBytesBE ((b :: t).take 2)
          · rw [if_pos hB, if_pos hB]
          · rw [if_neg hB, if_neg hB]
            have hdl : (((b :: t).drop 2).drop (fromBytesBE ((b :: t).take 2))).length =
                (t.length + 1 - 2) - fromBytesBE ((b :: t).take 2) := by
              simp [List.length_drop]
              omega
            simp only [List.length_cons] at h1 h2
            rw [ih g2 _ (by omega) (by omega)]

theorem encryptLoopAux_fuel (pub : PublicKey) (k pb cap : Nat) (hcap : 0 < cap)
    (rand lenPfx : Bool) (rnds : Nat → Fin 255) :
    ∀ f₁ f₂ idx (rest : Bytes), rest.length < f₁ → rest.length < f₂ →
      encryptLoopAux pub k pb cap rand lenPfx rnds f₁ idx rest =
        encryptLoopAux pub k pb cap rand lenPfx rnds f₂ idx rest := by
  intro f₁
  induction f₁ with
  | zero => intro f₂ idx rest h1 _; omega
  | succ g ih =>
    intro f₂ idx rest h1 h2
    cases f₂ with
    | zero => omega
    | succ g2 =>
      cases rest with
      | nil => rfl
      | cons b t =>
        rw [encryptLoopAux_cons, encryptLoopAux_cons]
        have hdl : ((b :: t).drop cap).length = (t.length + 1) - cap := by
          simp [List.length_drop]
        simp only [List.length_cons] at h1 h2
        rw [ih g2 (idx + 1) ((b :: t).drop cap) (by omega) (by omega)]

/-! ### One-frame peeling of the decode framing -/

theorem splitFixedAux_append (k : Nat) (hk : 0 < k) (blk rest : Bytes)
    (hlen : blk.length = k) (f : Nat) (hf : (blk ++ rest).length < f) :
    splitFixedAux k f (blk ++ rest) = blk :: splitFixedAux k (rest.length + 1) rest := by
  cases f with
  | zero => omega
  | succ g =>
    cases blk with
    | nil =>
      simp only [List.length_nil] at hlen
      omega
    | cons b t =>
      rw [List.cons_append, splitFixedAux_cons, ← List.cons_append]
      rw [List.take_left' hlen, List.drop_left' hlen]
      congr 1
      simp only [List.length_append, List.length_cons] at hf
      simp only [List.length_cons] at hlen
      apply splitFixedAux_fuel k hk
      · omega
      · omega

theorem toBytesBE_two (v : Nat) : toBytesBE 2 v = v / 256 % 256 :: [v % 256] := rfl

theorem parseLenAux_append (blk rest : Bytes) (hlen : blk.length < 65536)
    (f : Nat) (hf : (toBytesBE 2 blk.length ++ blk ++ rest).length < f) :
    parseLenAux f (toBytesBE 2 blk.length ++ blk ++ rest) =
      (parseLenAux (rest.length + 1) rest).bind fun tail => .ok (blk :: tail) := by
  have hl2 : (toBytesBE 2 blk.length).length = 2 := toBytesBE_length 2 _
  cases f with
  | zero => omega
  | succ g =>
    conv_lhs => rw [List.append_assoc, toBytesBE_two, List.cons_append]
    rw [parseLenAux_cons, ← List.cons_append, ← toBytesBE_two]
    have hnl2 : ¬ (toBytesBE 2 blk.length ++ (blk ++ rest)).length < 2 := by
      simp only [List.length_append, hl2]
      omega
    rw [if_neg hnl2, List.take_left' hl2, List.drop_left' hl2,
      fromBytesBE_toBytesBE 2 blk.length (by omega)]
    have hnbl : ¬ (blk ++ rest).length < blk.length := by
      simp only [List.length_append]
      omega
    rw [if_neg hnbl, List.take_left' rfl, List.drop_left' rfl]
    have hfg : rest.length < g := by
      simp only [List.append_assoc, List.length_append, hl2] at hf
      omega
    rw [parseLenAux_fuel g (rest.length + 1) rest hfg (by omega)]
    rfl

/-! ### Per-block decode of an encoded block -/

theorem pos_of_plain_block (n : Nat) (h : 8 ≤ mod_bytes n - 1) : n ≠ 0 := by
  intro h0
  subst h0
  revert h
  decide

theorem decBlock_of_enc (n e d k pb : Nat) (rand : Bool)
    (chunk pre block padded : Bytes) (r : Nat)
    (hrsa : ∀ m, m < n → m ^ (e * d) % n = m)
    (hk : k = mod_bytes n) (hpb : pb = k - 1) (h8 : 8 ≤ pb) (hk16 : k ≤ 65535)
    (hcap : chunk.length ≤ (if rand then pb - 3 else pb - 2))
    (hcb : ∀ x ∈ chunk, x < 256) (hr : r < 256)
    (hpre : pre = if rand then [r] else [])
    (hblock : block = toBytesBE 2 chunk.length ++ (pre ++ chunk))
    (hpadded : padded = block ++ List.replicate (pb - block.length) 0) :
    decBlock ⟨n, d⟩ pb rand (toBytesBE k (fromBytesBE padded ^ e % n)) = .ok chunk := by
  have hn0 : n ≠ 0 := pos_of_plain_block n (by rw [← hk]; omega)
  have hnpos : 0 < n := Nat.pos_of_ne_zero hn0
  have hprelen : pre.length = if rand then 1 else 0 := by
    rw [hpre]; cases rand <;> simp
  have hpreb : ∀ x ∈ pre, x < 256 := by
    rw [hpre]; cases rand <;> simp <;> omega
  have hcap' : chunk.length + pre.length ≤ pb - 2 := by
    cases rand <;> simp_all <;> omega
  have hblen : block.length = 2 + (pre.length + chunk.length) := by
    simp [hblock, toBytesBE_length]
  have hble : block.length ≤ pb := by omega
  have hplen : padded.length = pb := by
    simp only [hpadded, List.length_append, List.length_replicate]
    omega
  have hpbytes : ∀ x ∈ padded, x < 256 := by
    intro x hx
    rw [hpadded, hblock] at hx
    rcases List.mem_append.mp hx with hx | hx
    · rcases List.mem_append.mp hx with hx | hx
      · exact toBytesBE_mem_lt 2 _ x hx
      · rcases List.mem_append.mp hx with hx | hx
        · exact hpreb x hx
        · exact hcb x hx
    · rw [List.eq_of_mem_replicate hx]
      omega
  have hm256 : fromBytesBE padded < 256 ^ pb := by
    have := fromBytesBE_lt padded hpbytes
    rwa [hplen] at this
  have hmn : fromBytesBE padded < n := by
    have hlow : 256 ^ (mod_bytes n - 1) ≤ n := mod_bytes_lower n hn0
    have hpow : (256:Nat) ^ pb = 256 ^ (mod_bytes n - 1) := by rw [hpb, hk]
    omega
  have hcn : fromBytesBE padded ^ e % n < n := Nat.mod_lt _ hnpos
  have hc256 : fromBytesBE padded ^ e % n < 256 ^ k := by
    have := mod_bytes_upper n
    rw [← hk] at this
    omega
  have hcd : (fromBytesBE padded ^ e % n) ^ d % n = fromBytesBE padded := by
    rw [← Nat.pow_mod, ← pow_mul]
    exact hrsa _ hmn
  have h1 : rsa_decrypt_int (fromBytesBE (toBytesBE k (fromBytesBE padded ^ e % n)))
      ⟨n, d⟩ = .ok (fromBytesBE padded) := by
    unfold rsa_decrypt_int
    rw [fromBytesBE_toBytesBE k _ hc256]
    simp only [if_pos hcn, hcd]
  have htb : toBytes? pb (fromBytesBE padded) = .ok padded := by
    unfold toBytes?
    rw [if_pos hm256, ← hplen, toBytesBE_fromBytesBE padded hpbytes]
  have hL16 : chunk.length < 256 ^ 2 := by
    have : (256:Nat) ^ 2 = 65536 := by norm_num
    omega
  have htake2 : padded.take 2 = toBytesBE 2 chunk.length := by
    rw [hpadded, hblock, List.append_assoc]
    exact List.take_left' (toBytesBE_length 2 _)
  have hgt : ¬ chunk.length > (if rand then pb - 3 else pb - 2) := by omega
  have hassoc : padded = (toBytesBE 2 chunk.length ++ pre) ++
      (chunk ++ List.replicate (pb - block.length) 0) := by
    rw [hpadded, hblock]
    simp [List.append_assoc]
  have hstart : (if rand then 3 else 2) = (toBytesBE 2 chunk.length ++ pre).length := by
    simp only [List.length_append, toBytesBE_length, hprelen]
    cases rand <;> simp
  have hdropstart : padded.drop (if rand then 3 else 2) =
      chunk ++ List.replicate (pb - block.length) 0 := by
    rw [hassoc, hstart]
    exact List.drop_left _ _
  simp only [decBlock, h1, ok_bind, htb, htake2,
    fromBytesBE_toBytesBE 2 chunk.length hL16]
  rw [if_neg hgt, hdropstart, List.take_left' rfl]
  rfl

/-! ### Round trip of the block-cipher loop -/

theorem encLoop_roundtrip (n e d k pb cap : Nat) (rand lenPfx : Bool)
    (rnds : Nat → Fin 255)
    (hrsa : ∀ m, m < n → m ^ (e * d) % n = m)
    (hk : k = mod_bytes n) (hpb : pb = k - 1) (h8 : 8 ≤ pb) (hk16 : k ≤ 65535)
    (hcapeq : cap = if rand then pb - 3 else pb - 2) :
    ∀ fuel (rest : Bytes) idx, rest.length < fuel → (∀ x ∈ rest, x < 256) →
      ∃ ct blocks,
        encryptLoopAux ⟨n, e⟩ k pb cap rand lenPfx rnds fuel idx rest = .ok ct ∧
        (∃ cnt, ct.length = (if lenPfx then k + 2 else k) * cnt) ∧
        (lenPfx = true → parseLenAux (ct.length + 1) ct = .ok blocks) ∧
        (lenPfx = false → splitFixedAux k (ct.length + 1) ct = blocks) ∧
        decBlocks ⟨n, d⟩ pb rand blocks = .ok rest := by
  have hcappos : 0 < cap := by
    rw [hcapeq]; cases rand <;> simp <;> omega
  have hcaple : cap ≤ pb - 2 := by
    rw [hcapeq]; cases rand <;> simp <;> omega
  have hkpos : 0 < k := by omega
  intro fuel
  induction fuel with
  | zero => intro rest idx h1 _; omega
  | succ g ih =>
    intro rest idx h1 hbytes
    cases rest with
    | nil =>
      exact ⟨[], [], rfl, ⟨0, by simp⟩, fun _ => rfl, fun _ => rfl, rfl⟩
    | cons b t =>
      -- facts about the chunk taken by this iteration
      have hchlen : ((b :: t).take cap).length = min cap (t.length + 1) := by
        simp [List.length_take]
      have hchle : ((b :: t).take cap).length ≤ cap := by
        rw [hchlen]; exact Nat.min_le_left _ _
      have hchb : ∀ x ∈ (b :: t).take cap, x < 256 :=
        fun x hx => hbytes x (List.mem_of_mem_take hx)
      have h65536 : (256 : Nat) ^ 2 = 65536 := by norm_num
      have hch16 : ((b :: t).take cap).length < 256 ^ 2 := by omega
      have hlenB : toBytes? 2 ((b :: t).take cap).length =
          .ok (toBytesBE 2 ((b :: t).take cap).length) := by
        unfold toBytes?
        rw [if_pos hch16]
      -- the assembled plaintext block
      have hblockeq :
          (if rand then toBytesBE 2 ((b :: t).take cap).length ++
              (((rnds idx).val + 1) :: (b :: t).take cap)
           else toBytesBE 2 ((b :: t).take cap).length ++ (b :: t).take cap) =
          toBytesBE 2 ((b :: t).take cap).length ++
            ((if rand then [(rnds idx).val + 1] else []) ++ (b :: t).take cap) := by
        cases rand <;> simp
      have hprelen : (if rand then [(rnds idx).val + 1] else ([] : Bytes)).length =
          if rand then 1 else 0 := by
        cases rand <;> simp
      have hblen : (toBytesBE 2 ((b :: t).take cap).length ++
          ((if rand then [(rnds idx).val + 1] else []) ++ (b :: t).take cap)).length =
          2 + ((if rand then 1 else 0) + ((b :: t).take cap).length) := by
        simp only [List.length_append, toBytesBE_length, hprelen]
      have hblockle : (toBytesBE 2 ((b :: t).take cap).length ++
          ((if rand then [(rnds idx).val + 1] else []) ++ (b :: t).take cap)).length ≤ pb := by
        rw [hblen]
        have hc : cap + (if rand then 1 else 0) ≤ pb - 2 := by
          rw [hcapeq]
          cases rand <;> simp <;> omega
        omega
      -- the padded block and its value
      have hpadlen : ((toBytesBE 2 ((b :: t).take cap).length ++
          ((if rand then [(rnds idx).val + 1] else []) ++ (b :: t).take cap)) ++
          List.replicate (pb - (toBytesBE 2 ((b :: t).take cap).length ++
            ((if rand then [(rnds idx).val + 1] else []) ++ (b :: t).take cap)).length)
            0).length = pb := by
        rw [List.length_append, List.length_replicate]
        omega
      have hpadbytes : ∀ x ∈ (toBytesBE 2 ((b :: t).take cap).length ++
          ((if rand then [(rnds idx).val + 1] else []) ++ (b :: t).take cap)) ++
          List.replicate (pb - (toBytesBE 2 ((b :: t).take cap).length ++
            ((if rand then [(rnds idx).val + 1] else []) ++ (b :: t).take cap)).length) 0,
          x < 256 := by
        intro x hx
        rcases List.mem_append.mp hx with hx | hx
        · rcases List.mem_append.mp hx with hx | hx
          · exact toBytesBE_mem_lt 2 _ x hx
          · rcases List.mem_append.mp hx with hx | hx
            · cases rand with
              | false => simp at hx
              | true =>
                simp at hx
                have := (rnds idx).isLt
                omega
            · exact hchb x hx
        · rw [List.eq_of_mem_replicate hx]
          omega
      have hn0 : n ≠ 0 := pos_of_plain_block n (by rw [← hk]; omega)
      have hnpos : 0 < n := Nat.pos_of_ne_zero hn0
      have hmn : fromBytesBE ((toBytesBE 2 ((b :: t).take cap).length ++
          ((if rand then [(rnds idx).val + 1] else []) ++ (b :: t).take cap)) ++
          List.replicate (pb - (toBytesBE 2 ((b :: t).take cap).length ++
            ((if rand then [(rnds idx).val + 1] else []) ++ (b :: t).take cap)).length) 0) <
          n := by
        have hv := fromBytesBE_lt _ hpadbytes
        rw [hpadlen] at hv
        have hlow : 256 ^ (mod_bytes n - 1) ≤ n := mod_bytes_lower n hn0
        have hpow : (256:Nat) ^ pb = 256 ^ (mod_bytes n - 1) := by rw [hpb, hk]
        omega
      have hence : rsa_encrypt_int (fromBytesBE ((toBytesBE 2 ((b :: t).take cap).length ++
          ((if rand then [(rnds idx).val + 1] else []) ++ (b :: t).take cap)) ++
          List.replicate (pb - (toBytesBE 2 ((b :: t).take cap).length ++
            ((if rand then [(rnds idx).val + 1] else []) ++ (b :: t).take cap)).length) 0))
          ⟨n, e⟩ = .ok (fromBytesBE ((toBytesBE 2 ((b :: t).take cap).length ++
          ((if rand then [(rnds idx).val + 1] else []) ++ (b :: t).take cap)) ++
          List.replicate (pb - (toBytesBE 2 ((b :: t).take cap).length ++
            ((if rand then [(rnds idx).val + 1] else []) ++ (b :: t).take cap)).length) 0)
          ^ e % n) := by
        unfold rsa_encrypt_int
        rw [if_pos hmn]
      have hc256 : fromBytesBE ((toBytesBE 2 ((b :: t).take cap).length ++
          ((if rand then [(rnds idx).val + 1] else []) ++ (b :: t).take cap)) ++
          List.replicate (pb - (toBytesBE 2 ((b :: t).take cap).length ++
            ((if rand then [(rnds idx).val + 1] else []) ++ (b :: t).take cap)).length) 0)
          ^ e % n < 256 ^ k := by
        have h1' : fromBytesBE ((toBytesBE 2 ((b :: t).take cap).length ++
            ((if rand then [(rnds idx).val + 1] else []) ++ (b :: t).take cap)) ++
            List.replicate (pb - (toBytesBE 2 ((b :: t).take cap).length ++
              ((if rand then [(rnds idx).val + 1] else []) ++ (b :: t).take cap)).length) 0)
            ^ e % n < n := Nat.mod_lt _ hnpos
        have h2' := mod_bytes_upper n
        rw [← hk] at h2'
        omega
      have hcbytes : toBytes? k (fromBytesBE ((toBytesBE 2 ((b :: t).take cap).length ++
          ((if rand then [(rnds idx).val + 1] else []) ++ (b :: t).take cap)) ++
          List.replicate (pb - (toBytesBE 2 ((b :: t).take cap).length ++
            ((if rand then [(rnds idx).val + 1] else []) ++ (b :: t).take cap)).length) 0)
          ^ e % n) = .ok (toBytesBE k (fromBytesBE ((toBytesBE 2 ((b :: t).take cap).length ++
          ((if rand then [(rnds idx).val + 1] else []) ++ (b :: t).take cap)) ++
          List.replicate (pb - (toBytesBE 2 ((b :: t).take cap).length ++
            ((if rand then [(rnds idx).val + 1] else []) ++ (b :: t).take cap)).length) 0)
          ^ e % n)) := by
        unfold toBytes?
        rw [if_pos hc256]
      have hdropped : ((b :: t).drop cap).length < g := by
        simp only [List.length_drop, List.length_cons] at *
        omega
      have hdropb : ∀ x ∈ (b :: t).drop cap, x < 256 :=
        fun x hx => hbytes x (List.mem_of_mem_drop hx)
      obtain ⟨ct', blocks', henc', hcnt', hparseT', hparseF', hdec'⟩ :=
        ih ((b :: t).drop cap) (idx + 1) hdropped hdropb
      have hdecb : decBlock ⟨n, d⟩ pb rand (toBytesBE k
          (fromBytesBE ((toBytesBE 2 ((b :: t).take cap).length ++
          ((if rand then [(rnds idx).val + 1] else []) ++ (b :: t).take cap)) ++
          List.replicate (pb - (toBytesBE 2 ((b :: t).take cap).length ++
            ((if rand then [(rnds idx).val + 1] else []) ++ (b :: t).take cap)).length) 0)
          ^ e % n)) = .ok ((b :: t).take cap) := by
        refine decBlock_of_enc n e d k pb rand ((b :: t).take cap)
          (if rand then [(rnds idx).val + 1] else []) _ _ ((rnds idx).val + 1)
          hrsa hk hpb h8 hk16 ?_ hchb ?_ rfl rfl rfl
        · rw [← hcapeq]; exact hchle
        · have := (rnds idx).isLt
          omega
      -- the ciphertext frame of this block
      refine ⟨(if lenPfx then
          toBytesBE 2 (toBytesBE k (fromBytesBE ((toBytesBE 2 ((b :: t).take cap).length ++
            ((if rand then [(rnds idx).val + 1] else []) ++ (b :: t).take cap)) ++
            List.replicate (pb - (toBytesBE 2 ((b :: t).take cap).length ++
              ((if rand then [(rnds idx).val + 1] else []) ++ (b :: t).take cap)).length) 0)
            ^ e % n)).length ++ toBytesBE k (fromBytesBE ((toBytesBE 2 ((b :: t).take cap).length ++
            ((if rand then [(rnds idx).val + 1] else []) ++ (b :: t).take cap)) ++
            List.replicate (pb - (toBytesBE 2 ((b :: t).take cap).length ++
              ((if rand then [(rnds idx).val + 1] else []) ++ (b :: t).take cap)).length) 0)
            ^ e % n)
        else toBytesBE k (fromBytesBE ((toBytesBE 2 ((b :: t).take cap).length ++
            ((if rand then [(rnds idx).val + 1] else []) ++ (b :: t).take cap)) ++
            List.replicate (pb - (toBytesBE 2 ((b :: t).take cap).length ++
              ((if rand then [(rnds idx).val + 1] else []) ++ (b :: t).take cap)).length) 0)
            ^ e % n)) ++ ct',
        toBytesBE k (fromBytesBE ((toBytesBE 2 ((b :: t).take cap).length ++
          ((if rand then [(rnds idx).val + 1] else []) ++ (b :: t).take cap)) ++
          List.replicate (pb - (toBytesBE 2 ((b :: t).take cap).length ++
            ((if rand then [(rnds idx).val + 1] else []) ++ (b :: t).take cap)).length) 0)
          ^ e % n) :: blocks', ?_, ?_, ?_, ?_, ?_⟩
      · -- the encryption loop produces the frame followed by the tail
        rw [encryptLoopAux_cons, if_neg (by omega : ¬ ((b :: t).take cap).length > cap)]
        simp only [hlenB, ok_bind, hblockeq, hence, hcbytes, henc']
        cases lenPfx with
        | false => rfl
        | true =>
          have hk2 : toBytes? 2 (toBytesBE k (fromBytesBE ((toBytesBE 2 ((b :: t).take cap).length ++
              ((if rand then [(rnds idx).val + 1] else []) ++ (b :: t).take cap)) ++
              List.replicate (pb - (toBytesBE 2 ((b :: t).take cap).length ++
                ((if rand then [(rnds idx).val + 1] else []) ++ (b :: t).take cap)).length) 0)
              ^ e % n)).length = .ok (toBytesBE 2 (toBytesBE k (fromBytesBE ((toBytesBE 2 ((b :: t).take cap).length ++
              ((if rand then [(rnds idx).val + 1] else []) ++ (b :: t).take cap)) ++
              List.replicate (pb - (toBytesBE 2 ((b :: t).take cap).length ++
                ((if rand then [(rnds idx).val + 1] else []) ++ (b :: t).take cap)).length) 0)
              ^ e % n)).length) := by
            unfold toBytes?
            rw [if_pos (by rw [toBytesBE_length]; omega)]
          simp only [if_pos (rfl : (true = true)), hk2, ok_bind]
          rfl
      · -- frame length accounting
        obtain ⟨cnt, hcnt⟩ := hcnt'
        refine ⟨cnt + 1, ?_⟩
        have hfl : (if lenPfx then
            toBytesBE 2 (toBytesBE k (fromBytesBE ((toBytesBE 2 ((b :: t).take cap).length ++
              ((if rand then [(rnds idx).val + 1] else []) ++ (b :: t).take cap)) ++
              List.replicate (pb - (toBytesBE 2 ((b :: t).take cap).length ++
                ((if rand then [(rnds idx).val + 1] else []) ++ (b :: t).take cap)).length) 0)
              ^ e % n)).length ++ toBytesBE k (fromBytesBE ((toBytesBE 2 ((b :: t).take cap).length ++
              ((if rand then [(rnds idx).val + 1] else []) ++ (b :: t).take cap)) ++
              List.replicate (pb - (toBytesBE 2 ((b :: t).take cap).length ++
                ((if rand then [(rnds idx).val + 1] else []) ++ (b :: t).take cap)).length) 0)
              ^ e % n)
          else toBytesBE k (fromBytesBE ((toBytesBE 2 ((b :: t).take cap).length ++
              ((if rand then [(rnds idx).val + 1] else []) ++ (b :: t).take cap)) ++
              List.replicate (pb - (toBytesBE 2 ((b :: t).take cap).length ++
                ((if rand then [(rnds idx).val + 1] else []) ++ (b :: t).take cap)).length) 0)
              ^ e % n)).length = (if lenPfx then k + 2 else k) := by
          cases lenPfx <;> simp [toBytesBE_length] <;> omega
        rw [List.length_append, hfl, hcnt]
        ring
      · -- in the length-prefixed modes the framing parses back to the block list
        intro hl
        subst hl
        simp only [eq_self_iff_true, if_true]
        rw [parseLenAux_append _ _ (by rw [toBytesBE_length]; omega) _ (by omega)]
        rw [hparseT' rfl]
        rfl
      · -- in the fixed modes the k-byte slicing recovers the block list
        intro hl
        subst hl
        simp only [Bool.false_eq_true, if_false]
        rw [splitFixedAux_append k hkpos _ _ (toBytesBE_length k _) _ (by omega)]
        rw [hparseF' rfl]
      · -- the blocks decode back to the plaintext
        simp only [decBlocks, hdecb, ok_bind, hdec', ok_bind]
        rw [List.take_append_drop]
        rfl

/-! ### Mode dispatch of encrypt and decrypt -/

theorem encrypt_bytes_raw_fixed (data : Bytes) (n e : Nat) (rnds : Nat → Fin 255)
    (h8 : ¬ (mod_bytes n - 1 < 8)) :
    encrypt_bytes data ⟨n, e⟩ "raw_fixed" rnds =
      encryptLoopAux ⟨n, e⟩ (mod_bytes n) (mod_bytes n - 1) (mod_bytes n - 1 - 2)
        false false rnds (data.length + 1) 0 data := by
  simp [encrypt_bytes, h8]

theorem encrypt_bytes_raw_len (data : Bytes) (n e : Nat) (rnds : Nat → Fin 255)
    (h8 : ¬ (mod_bytes n - 1 < 8)) :
    encrypt_bytes data ⟨n, e⟩ "raw_len" rnds =
      encryptLoopAux ⟨n, e⟩ (mod_bytes n) (mod_bytes n - 1) (mod_bytes n - 1 - 2)
        false true rnds (data.length + 1) 0 data := by
  simp [encrypt_bytes, h8]

theorem encrypt_bytes_rand_fixed (data : Bytes) (n e : Nat) (rnds : Nat → Fin 255)
    (h8 : ¬ (mod_bytes n - 1 < 8)) :
    encrypt_bytes data ⟨n, e⟩ "rand_fixed" rnds =
      encryptLoopAux ⟨n, e⟩ (mod_bytes n) (mod_bytes n - 1) (mod_bytes n - 1 - 3)
        true false rnds (data.length + 1) 0 data := by
  simp [encrypt_bytes, h8]

theorem encrypt_bytes_rand_len (data : Bytes) (n e : Nat) (rnds : Nat → Fin 255)
    (h8 : ¬ (mod_bytes n - 1 < 8)) :
    encrypt_bytes data ⟨n, e⟩ "rand_len" rnds =
      encryptLoopAux ⟨n, e⟩ (mod_bytes n) (mod_bytes n - 1) (mod_bytes n - 1 - 3)
        true true rnds (data.length + 1) 0 data := by
  simp [encrypt_bytes, h8]

theorem decrypt_bytes_raw_fixed (ct : Bytes) (n d : Nat)
    (hk0 : mod_bytes n ≠ 0) (hal : ct.length % mod_bytes n = 0) :
    decrypt_bytes ct ⟨n, d⟩ "raw_fixed" =
      decBlocks ⟨n, d⟩ (mod_bytes n - 1) false
        (splitFixedAux (mod_bytes n) (ct.length + 1) ct) := by
  simp [decrypt_bytes, parseBlocks, hk0, hal]
  rfl

theorem decrypt_bytes_rand_fixed (ct : Bytes) (n d : Nat)
    (hk0 : mod_bytes n ≠ 0) (hal : ct.length % mod_bytes n = 0) :
    decrypt_bytes ct ⟨n, d⟩ "rand_fixed" =
      decBlocks ⟨n, d⟩ (mod_bytes n - 1) true
        (splitFixedAux (mod_bytes n) (ct.length + 1) ct) := by
  simp [decrypt_bytes, parseBlocks, hk0, hal]
  rfl

theorem decrypt_bytes_raw_len (ct : Bytes) (n d : Nat) :
    decrypt_bytes ct ⟨n, d⟩ "raw_len" =
      (parseLenAux (ct.length + 1) ct).bind
        (decBlocks ⟨n, d⟩ (mod_bytes n - 1) false) := by
  simp [decrypt_bytes, parseBlocks]
  rfl

theorem decrypt_bytes_rand_len (ct : Bytes) (n d : Nat) :
    decrypt_bytes ct ⟨n, d⟩ "rand_len" =
      (parseLenAux (ct.length + 1) ct).bind
        (decBlocks ⟨n, d⟩ (mod_bytes n - 1) true) := by
  simp [decrypt_bytes, parseBlocks]
  rfl

theorem decrypt_bytes_fixed_misaligned (ct : Bytes) (priv : PrivateKey) (mode : String)
    (hmode : mode = "raw_fixed" ∨ mode = "rand_fixed")
    (hk0 : mod_bytes priv.n ≠ 0) (hal : ct.length % mod_bytes priv.n ≠ 0) :
    decrypt_bytes ct priv mode = .error "cipher length not aligned" := by
  rcases hmode with hm | hm <;> subst hm <;>
    simp [decrypt_bytes, parseBlocks, hk0, hal] <;> rfl

/-! ### End-to-end round trip of encrypt_bytes / decrypt_bytes -/

theorem encrypt_then_decrypt (p q e d : Nat) (mode : String) (data : Bytes)
    (rnds : Nat → Fin 255)
    (hp : p.Prime) (hq : q.Prime) (hpq : p ≠ q)
    (hed : (e * d) % ((p - 1) * (q - 1)) = 1)
    (h8 : 8 ≤ mod_bytes (p * q) - 1) (hk16 : mod_bytes (p * q) ≤ 65535)
    (hmode : mode = "raw_fixed" ∨ mode = "raw_len" ∨ mode = "rand_fixed" ∨ mode = "rand_len")
    (hdata : ∀ x ∈ data, x < 256) :
    (encrypt_bytes data ⟨p * q, e⟩ mode rnds).bind
      (fun ct => decrypt_bytes ct ⟨p * q, d⟩ mode) = .ok data := by
  have hrsa : ∀ m, m < p * q → m ^ (e * d) % (p * q) = m := by
    intro m hm
    rw [rsa_exponent_identity p q e d m hp hq hpq hed]
    exact Nat.mod_eq_of_lt hm
  rcases hmode with hm | hm | hm | hm <;> subst hm
  · -- raw_fixed
    obtain ⟨ct, blocks, henc, ⟨cnt, hlen⟩, hpT, hpF, hdec⟩ :=
      encLoop_roundtrip (p * q) e d (mod_bytes (p * q)) (mod_bytes (p * q) - 1)
        (mod_bytes (p * q) - 1 - 2) false false rnds hrsa rfl rfl h8 hk16 (by simp)
        (data.length + 1) data 0 (by omega) hdata
    simp only [if_neg (by simp : ¬ (false = true))] at hlen
    rw [encrypt_bytes_raw_fixed data (p * q) e rnds (by omega), henc, ok_bind']
    rw [decrypt_bytes_raw_fixed ct (p * q) d (by omega)
      (by rw [hlen]; exact Nat.mul_mod_right _ _)]
    rw [hpF rfl]
    exact hdec
  · -- raw_len
    obtain ⟨ct, blocks, henc, ⟨cnt, hlen⟩, hpT, hpF, hdec⟩ :=
      encLoop_roundtrip (p * q) e d (mod_bytes (p * q)) (mod_bytes (p * q) - 1)
        (mod_bytes (p * q) - 1 - 2) false true rnds hrsa rfl rfl h8 hk16 (by simp)
        (data.length + 1) data 0 (by omega) hdata
    rw [encrypt_bytes_raw_len data (p * q) e rnds (by omega), henc, ok_bind']
    rw [decrypt_bytes_raw_len ct (p * q) d, hpT rfl]
    exact hdec
  · -- rand_fixed
    obtain ⟨ct, blocks, henc, ⟨cnt, hlen⟩, hpT, hpF, hdec⟩ :=
      encLoop_roundtrip (p * q) e d (mod_bytes (p * q)) (mod_bytes (p * q) - 1)
        (mod_bytes (p * q) - 1 - 3) true false rnds hrsa rfl rfl h8 hk16 (by simp)
        (data.length + 1) data 0 (by omega) hdata
    simp only [if_neg (by simp : ¬ (false = true))] at hlen
    rw [encrypt_bytes_rand_fixed data (p * q) e rnds (by omega), henc, ok_bind']
    rw [decrypt_bytes_rand_fixed ct (p * q) d (by omega)
      (by rw [hlen]; exact Nat.mul_mod_right _ _)]
    rw [hpF rfl]
    exact hdec
  · -- rand_len
    obtain ⟨ct, blocks, henc, ⟨cnt, hlen⟩, hpT, hpF, hdec⟩ :=
      encLoop_roundtrip (p * q) e d (mod_bytes (p * q)) (mod_bytes (p * q) - 1)
        (mod_bytes (p * q) - 1 - 3) true true rnds hrsa rfl rfl h8 hk16 (by simp)
        (data.length + 1) data 0 (by omega) hdata
    rw [encrypt_bytes_rand_len data (p * q) e rnds (by omega), henc, ok_bind']
    rw [decrypt_bytes_rand_len ct (p * q) d, hpT rfl]
    exact hdec

/-! ### Raw modes ignore the random stream -/

theorem encryptLoopAux_raw_rnds (pub : PublicKey) (k pb cap : Nat) (lenPfx : Bool) :
    ∀ fuel idx (rest : Bytes) (r1 r2 : Nat → Fin 255),
      encryptLoopAux pub k pb cap false lenPfx r1 fuel idx rest =
        encryptLoopAux pub k pb cap false lenPfx r2 fuel idx rest := by
  intro fuel
  induction fuel with
  | zero => intros; rfl
  | succ g ih =>
    intro idx rest r1 r2
    cases rest with
    | nil => rfl
    | cons b t =>
      rw [encryptLoopAux_cons, encryptLoopAux_cons]
      simp only [Bool.false_eq_true, if_false]
      rw [ih (idx + 1) ((b :: t).drop cap) r1 r2]

/-! ### Single-step structure of the encryption loop -/

theorem error_bind {α β : Type} (s : String) (f : α → Except String β) :
    (Except.error s : Except String α) >>= f = .error s := rfl

theorem encryptLoopAux_ok_nil (pub : PublicKey) (k pb cap : Nat) (rand lenPfx : Bool)
    (rnds : Nat → Fin 255) (f idx : Nat) (hf : 0 < f) :
    encryptLoopAux pub k pb cap rand lenPfx rnds f idx [] = .ok [] := by
  cases f with
  | zero => omega
  | succ g => rfl

theorem encryptLoopAux_step (n e k pb cap : Nat) (rand lenPfx : Bool)
    (rnds : Nat → Fin 255) (f idx : Nat) (b : Nat) (t : Bytes)
    (hk : k = mod_bytes n) (hpb : pb = k - 1) (h8 : 8 ≤ pb) (hk16 : k ≤ 65535)
    (hcapeq : cap = if rand then pb - 3 else pb - 2)
    (hbytes : ∀ x ∈ b :: t, x < 256) :
    encryptLoopAux ⟨n, e⟩ k pb cap rand lenPfx rnds (f + 1) idx (b :: t) =
      (encryptLoopAux ⟨n, e⟩ k pb cap rand lenPfx rnds f (idx + 1) ((b :: t).drop cap)).bind
        (fun tail => .ok (((if lenPfx then toBytesBE 2 k else []) ++
          cipherBlockOf n e k pb rand ((rnds idx).val + 1) ((b :: t).take cap)) ++ tail)) := by
  have hcaple : cap ≤ pb - 2 := by
    rw [hcapeq]; cases rand <;> simp <;> omega
  have hchle : ((b :: t).take cap).length ≤ cap := by
    simp [List.length_take]
  have h65536 : (256 : Nat) ^ 2 = 65536 := by norm_num
  have hch16 : ((b :: t).take cap).length < 256 ^ 2 := by omega
  have hlenB : toBytes? 2 ((b :: t).take cap).length =
      .ok (toBytesBE 2 ((b :: t).take cap).length) := by
    unfold toBytes?
    rw [if_pos hch16]
  have hblockeq :
      (if rand then toBytesBE 2 ((b :: t).take cap).length ++
          (((rnds idx).val + 1) :: (b :: t).take cap)
       else toBytesBE 2 ((b :: t).take cap).length ++ (b :: t).take cap) =
      toBytesBE 2 ((b :: t).take cap).length ++
        ((if rand then [(rnds idx).val + 1] else []) ++ (b :: t).take cap) := by
    cases rand <;> simp
  have hprelen : (if rand then [(rnds idx).val + 1] else ([] : Bytes)).length =
      if rand then 1 else 0 := by
    cases rand <;> simp
  have hblen : (toBytesBE 2 ((b :: t).take cap).length ++
      ((if rand then [(rnds idx).val + 1] else []) ++ (b :: t).take cap)).length =
      2 + ((if rand then 1 else 0) + ((b :: t).take cap).length) := by
    simp only [List.length_append, toBytesBE_length, hprelen]
  have hblockle : (toBytesBE 2 ((b :: t).take cap).length ++
      ((if rand then [(rnds idx).val + 1] else []) ++ (b :: t).take cap)).length ≤ pb := by
    rw [hblen]
    have hc : cap + (if rand then 1 else 0) ≤ pb - 2 := by
      rw [hcapeq]
      cases rand <;> simp <;> omega
    omega
  have hpadlen : ((toBytesBE 2 ((b :: t).take cap).length ++
      ((if rand then [(rnds idx).val + 1] else []) ++ (b :: t).take cap)) ++
      List.replicate (pb - (toBytesBE 2 ((b :: t).take cap).length ++
        ((if rand then [(rnds idx).val + 1] else []) ++ (b :: t).take cap)).length)
        0).length = pb := by
    rw [List.length_append, List.length_replicate]
    omega
  have hpadbytes : ∀ x ∈ (toBytesBE 2 ((b :: t).take cap).length ++
      ((if rand then [(rnds idx).val + 1] else []) ++ (b :: t).take cap)) ++
      List.replicate (pb - (toBytesBE 2 ((b :: t).take cap).length ++
        ((if rand then [(rnds idx).val + 1] else []) ++ (b :: t).take cap)).length) 0,
      x < 256 := by
    intro x hx
    rcases List.mem_append.mp hx with hx | hx
    · rcases List.mem_append.mp hx with hx | hx
      · exact toBytesBE_mem_lt 2 _ x hx
      · rcases List.mem_append.mp hx with hx | hx
        · cases rand with
          | false => simp at hx
          | true =>
            simp at hx
            have := (rnds idx).isLt
            omega
        · exact hbytes x (List.mem_of_mem_take hx)
    · rw [List.eq_of_mem_replicate hx]
      omega
  have hn0 : n ≠ 0 := pos_of_plain_block n (by rw [← hk]; omega)
  have hnpos : 0 < n := Nat.pos_of_ne_zero hn0
  have hmn : fromBytesBE ((toBytesBE 2 ((b :: t).take cap).length ++
      ((if rand then [(rnds idx).val + 1] else []) ++ (b :: t).take cap)) ++
      List.replicate (pb - (toBytesBE 2 ((b :: t).take cap).length ++
        ((if rand then [(rnds idx).val + 1] else []) ++ (b :: t).take cap)).length) 0) <
      n := by
    have hv := fromBytesBE_lt _ hpadbytes
    rw [hpadlen] at hv
    have hlow : 256 ^ (mod_bytes n - 1) ≤ n := mod_bytes_lower n hn0
    have hpow : (256:Nat) ^ pb = 256 ^ (mod_bytes n - 1) := by rw [hpb, hk]
    omega
  have hence : rsa_encrypt_int (fromBytesBE ((toBytesBE 2 ((b :: t).take cap).length ++
      ((if rand then [(rnds idx).val + 1] else []) ++ (b :: t).take cap)) ++
      List.replicate (pb - (toBytesBE 2 ((b :: t).take cap).length ++
        ((if rand then [(rnds idx).val + 1] else []) ++ (b :: t).take cap)).length) 0))
      ⟨n, e⟩ = .ok (fromBytesBE ((toBytesBE 2 ((b :: t).take cap).length ++
      ((if rand then [(rnds idx).val + 1] else []) ++ (b :: t).take cap)) ++
      List.replicate (pb - (toBytesBE 2 ((b :: t).take cap).length ++
        ((if rand then [(rnds idx).val + 1] else []) ++ (b :: t).take cap)).length) 0)
      ^ e % n) := by
    unfold rsa_encrypt_int
    rw [if_pos hmn]
  have hc256 : fromBytesBE ((toBytesBE 2 ((b :: t).take cap).length ++
      ((if rand then [(rnds idx).val + 1] else []) ++ (b :: t).take cap)) ++
      List.replicate (pb - (toBytesBE 2 ((b :: t).take cap).length ++
        ((if rand then [(rnds idx).val + 1] else []) ++ (b :: t).take cap)).length) 0)
      ^ e % n < 256 ^ k := by
    have h1' : fromBytesBE ((toBytesBE 2 ((b :: t).take cap).length ++
        ((if rand then [(rnds idx).val + 1] else []) ++ (b :: t).take cap)) ++
        List.replicate (pb - (toBytesBE 2 ((b :: t).take cap).length ++
          ((if rand then [(rnds idx).val + 1] else []) ++ (b :: t).take cap)).length) 0)
        ^ e % n < n := Nat.mod_lt _ hnpos
    have h2' := mod_bytes_upper n
    rw [← hk] at h2'
    omega
  have hcbytes : toBytes? k (fromBytesBE ((toBytesBE 2 ((b :: t).take cap).length ++
      ((if rand then [(rnds idx).val + 1] else []) ++ (b :: t).take cap)) ++
      List.replicate (pb - (toBytesBE 2 ((b :: t).take cap).length ++
        ((if rand then [(rnds idx).val + 1] else []) ++ (b :: t).take cap)).length) 0)
      ^ e % n) = .ok (toBytesBE k (fromBytesBE ((toBytesBE 2 ((b :: t).take cap).length ++
      ((if rand then [(rnds idx).val + 1] else []) ++ (b :: t).take cap)) ++
      List.replicate (pb - (toBytesBE 2 ((b :: t).take cap).length ++
        ((if rand then [(rnds idx).val + 1] else []) ++ (b :: t).take cap)).length) 0)
      ^ e % n)) := by
    unfold toBytes?
    rw [if_pos hc256]
  rw [encryptLoopAux_cons, if_neg (by omega : ¬ ((b :: t).take cap).length > cap)]
  simp only [hlenB, ok_bind, hblockeq, hence, hcbytes]
  cases lenPfx with
  | false => rfl
  | true =>
    have hk2 : toBytes? 2 k = .ok (toBytesBE 2 k) := by
      unfold toBytes?
      rw [if_pos (by omega)]
    simp only [eq_self_iff_true, if_true, toBytesBE_length, hk2, ok_bind]
    rfl

/-! ### Empty input, rejected blocks -/

theorem encrypt_bytes_empty (n e : Nat) (mode : String) (rnds : Nat → Fin 255)
    (h8 : 8 ≤ mod_bytes n - 1)
    (hmode : mode = "raw_fixed" ∨ mode = "raw_len" ∨ mode = "rand_fixed" ∨ mode = "rand_len") :
    encrypt_bytes [] ⟨n, e⟩ mode rnds = .ok [] := by
  rcases hmode with hm | hm | hm | hm <;> subst hm
  · rw [encrypt_bytes_raw_fixed [] n e rnds (by omega)]; rfl
  · rw [encrypt_bytes_raw_len [] n e rnds (by omega)]; rfl
  · rw [encrypt_bytes_rand_fixed [] n e rnds (by omega)]; rfl
  · rw [encrypt_bytes_rand_len [] n e rnds (by omega)]; rfl

theorem decrypt_bytes_empty (n d : Nat) (mode : String)
    (hk0 : mod_bytes n ≠ 0)
    (hmode : mode = "raw_fixed" ∨ mode = "raw_len" ∨ mode = "rand_fixed" ∨ mode = "rand_len") :
    decrypt_bytes [] ⟨n, d⟩ mode = .ok [] := by
  rcases hmode with hm | hm | hm | hm <;> subst hm
  · rw [decrypt_bytes_raw_fixed [] n d hk0 (by simp)]; rfl
  · rw [decrypt_bytes_raw_len [] n d]; rfl
  · rw [decrypt_bytes_rand_fixed [] n d hk0 (by simp)]; rfl
  · rw [decrypt_bytes_rand_len [] n d]; rfl

theorem decBlock_rejects (priv : PrivateKey) (pb : Nat) (rand : Bool) (b : Bytes)
    (m : Nat) (pbytes : Bytes)
    (h1 : rsa_decrypt_int (fromBytesBE b) priv = .ok m)
    (h2 : toBytes? pb m = .ok pbytes)
    (h3 : (if rand then pb - 3 else pb - 2) < fromBytesBE (pbytes.take 2)) :
    decBlock priv pb rand b = .error "bad plaintext length" := by
  simp only [decBlock, h1, ok_bind, h2]
  rw [if_pos h3]

theorem decBlocks_ok_each (priv : PrivateKey) (pb : Nat) (rand : Bool) :
    ∀ (blocks : List Bytes) (out : Bytes), decBlocks priv pb rand blocks = .ok out →
      ∀ b ∈ blocks, ∃ pay, decBlock priv pb rand b = .ok pay := by
  intro blocks
  induction blocks with
  | nil =>
    intro out _ b hb
    simp at hb
  | cons x xs ih =>
    intro out h b hb
    rcases hdb : decBlock priv pb rand x with s | part
    · simp only [decBlocks, hdb, error_bind] at h
      simp at h
    · simp only [decBlocks, hdb, ok_bind] at h
      rcases hdt : decBlocks priv pb rand xs with s2 | tail
      · rw [hdt, error_bind] at h
        simp at h
      · rcases List.mem_cons.mp hb with rfl | hb'
        · exact ⟨part, hdb⟩
        · exact ih tail hdt b hb'

/-! ### One- and two-chunk runs of the encryption loop -/

theorem encrypt_one_chunk (n e k pb cap : Nat) (rand lenPfx : Bool)
    (rnds : Nat → Fin 255) (idx : Nat) (chunk : Bytes)
    (hk : k = mod_bytes n) (hpb : pb = k - 1) (h8 : 8 ≤ pb) (hk16 : k ≤ 65535)
    (hcapeq : cap = if rand then pb - 3 else pb - 2)
    (hlen : chunk.length = cap) (hbytes : ∀ x ∈ chunk, x < 256) :
    encryptLoopAux ⟨n, e⟩ k pb cap rand lenPfx rnds (chunk.length + 1) idx chunk =
      .ok ((if lenPfx then toBytesBE 2 k else []) ++
        cipherBlockOf n e k pb rand ((rnds idx).val + 1) chunk) := by
  have hcappos : 0 < cap := by
    rw [hcapeq]; cases rand <;> simp <;> omega
  cases chunk with
  | nil => simp at hlen; omega
  | cons b t =>
    rw [show (b :: t).length + 1 = (b :: t).length + 1 from rfl]
    have hstep := encryptLoopAux_step n e k pb cap rand lenPfx rnds (b :: t).length idx b t
      hk hpb h8 hk16 hcapeq hbytes
    rw [hstep]
    have htk : (b :: t).take cap = b :: t := by
      rw [← hlen]; exact List.take_length _
    have hdr : (b :: t).drop cap = [] := by
      rw [← hlen]; exact List.drop_length _
    rw [htk, hdr, encryptLoopAux_ok_nil _ _ _ _ _ _ _ _ _ (by omega), ok_bind']
    rw [List.append_nil]

theorem encrypt_chunk_pair (n e k pb cap : Nat) (rand lenPfx : Bool)
    (rnds : Nat → Fin 255) (idx : Nat) (b : Nat) (t : Bytes)
    (hk : k = mod_bytes n) (hpb : pb = k - 1) (h8 : 8 ≤ pb) (hk16 : k ≤ 65535)
    (hcapeq : cap = if rand then pb - 3 else pb - 2)
    (hlen : (b :: t).length = cap + 1) (hbytes : ∀ x ∈ b :: t, x < 256) :
    encryptLoopAux ⟨n, e⟩ k pb cap rand lenPfx rnds ((b :: t).length + 1) idx (b :: t) =
      .ok (((if lenPfx then toBytesBE 2 k else []) ++
          cipherBlockOf n e k pb rand ((rnds idx).val + 1) ((b :: t).take cap)) ++
        ((if lenPfx then toBytesBE 2 k else []) ++
          cipherBlockOf n e k pb rand ((rnds (idx + 1)).val + 1) ((b :: t).drop cap))) := by
  have hcappos : 0 < cap := by
    rw [hcapeq]; cases rand <;> simp <;> omega
  rw [encryptLoopAux_step n e k pb cap rand lenPfx rnds (b :: t).length idx b t
    hk hpb h8 hk16 hcapeq hbytes]
  have hdl : ((b :: t).drop cap).length = 1 := by
    simp only [List.length_drop]
    omega
  obtain ⟨y, hy⟩ := List.length_eq_one.mp hdl
  have hyb : ∀ x ∈ (y :: ([] : Bytes)), x < 256 := by
    intro x hx
    have hmem : x ∈ (b :: t).drop cap := by rw [hy]; exact hx
    exact hbytes x (List.mem_of_mem_drop hmem)
  rw [hy, hlen]
  rw [encryptLoopAux_step n e k pb cap rand lenPfx rnds cap (idx + 1) y []
    hk hpb h8 hk16 hcapeq hyb]
  have htk : ((y :: ([] : Bytes))).take cap = [y] :=
    List.take_of_length_le (by simp; omega)
  have hdr : ((y :: ([] : Bytes))).drop cap = [] :=
    List.drop_eq_nil_of_le (by simp; omega)
  rw [htk, hdr, encryptLoopAux_ok_nil _ _ _ _ _ _ _ _ _ (by omega), ok_bind', ok_bind']
  rw [List.append_nil]

/-! ### Inversion and unfolding helpers for the framing/packing layers -/

theorem error_bind' {α β : Type} (s : String) (f : α → Except String β) :
    (Except.error s : Except String α).bind f = .error s := rfl

theorem toBytes?_ok (len v : Nat) (out : Bytes) (h : toBytes? len v = .ok out) :
    v < 256 ^ len ∧ out = toBytesBE len v := by
  by_cases hv : v < 256 ^ len
  · simp only [toBytes?, if_pos hv] at h
    cases h
    exact ⟨hv, rfl⟩
  · simp only [toBytes?, if_neg hv] at h
    cases h

theorem encrypt_bytes_small (data : Bytes) (n e : Nat) (mode : String)
    (rnds : Nat → Fin 255) (h : mod_bytes n - 1 < 8) :
    encrypt_bytes data ⟨n, e⟩ mode rnds = .error "RSA modulus too small" := by
  simp [encrypt_bytes, h]

theorem decrypt_bytes_def (data : Bytes) (priv : PrivateKey) (mode : String) :
    decrypt_bytes data priv mode =
      (parseBlocks data (mod_bytes priv.n) mode).bind
        (decBlocks priv (mod_bytes priv.n - 1) (mode_rand mode)) := rfl

theorem decrypt_bytes_not_ok_of_bad_block (data : Bytes) (priv : PrivateKey) (mode : String)
    (blocks : List Bytes) (b : Bytes)
    (hparse : parseBlocks data (mod_bytes priv.n) mode = .ok blocks)
    (hmem : b ∈ blocks)
    (hbad : decBlock priv (mod_bytes priv.n - 1) (mode_rand mode) b =
      .error "bad plaintext length") :
    ∀ out, decrypt_bytes data priv mode ≠ .ok out := by
  intro out hok
  rw [decrypt_bytes_def, hparse, ok_bind'] at hok
  obtain ⟨pay, hpay⟩ := decBlocks_ok_each priv (mod_bytes priv.n - 1) (mode_rand mode)
    blocks out hok b hmem
  rw [hbad] at hpay
  cases hpay

theorem packEntries_cons (b : Bytes) (bs : List Bytes) :
    packEntries (b :: bs) =
      (toBytes? 4 b.length).bind (fun l =>
        (packEntries bs).bind (fun tail => .ok (l ++ b ++ tail))) := rfl

theorem pack_multi_files_def (blobs : List Bytes) :
    pack_multi_files blobs =
      (toBytes? 4 blobs.length).bind (fun cnt =>
        (packEntries blobs).bind (fun rest => .ok (cnt ++ rest))) := rfl

theorem unpackEntriesAux_succ (cnt : Nat) (rest : Bytes) :
    unpackEntriesAux (cnt + 1) rest =
      if rest.length < 4 then .error "bad files blob"
      else if (rest.drop 4).length < fromBytesBE (rest.take 4) then .error "bad files blob"
      else (unpackEntriesAux cnt ((rest.drop 4).drop (fromBytesBE (rest.take 4)))).bind
        (fun tail => .ok ((rest.drop 4).take (fromBytesBE (rest.take 4)) :: tail)) := rfl

theorem unpack_pickle_bin_def {α : Type} (loads : Bytes → Except String α) (packet : Bytes) :
    unpack_pickle_bin loads packet =
      (unpackU32 (packet.take 4)).bind (fun hlen =>
        (loads ((packet.drop 4).take hlen)).bind (fun header =>
          (unpackU32 ((packet.drop (4 + hlen)).take 4)).bind (fun blen =>
            .ok (header, (packet.drop (4 + hlen + 4)).take blen)))) := rfl

/-! ### Round trip and truncation of the multi-file packing -/

theorem packEntries_ok_unpack :
    ∀ (blobs : List Bytes) (out : Bytes), packEntries blobs = .ok out →
      unpackEntriesAux blobs.length out = .ok blobs := by
  intro blobs
  induction blobs with
  | nil =>
    intro out h
    cases h
    rfl
  | cons b bs ih =>
    intro out h
    rw [packEntries_cons] at h
    rcases h1 : toBytes? 4 b.length with s | l
    · rw [h1, error_bind'] at h
      cases h
    · rw [h1, ok_bind'] at h
      obtain ⟨hblt, rfl⟩ := toBytes?_ok 4 b.length l h1
      rcases h2 : packEntries bs with s | tail
      · rw [h2, error_bind'] at h
        cases h
      · rw [h2, ok_bind'] at h
        cases h
        have hl4 : (toBytesBE 4 b.length).length = 4 := toBytesBE_length 4 _
        show unpackEntriesAux (bs.length + 1) (toBytesBE 4 b.length ++ b ++ tail) = _
        rw [List.append_assoc, unpackEntriesAux_succ]
        rw [if_neg (by rw [List.length_append, hl4]; omega)]
        rw [List.take_left' hl4, List.drop_left' hl4,
          fromBytesBE_toBytesBE 4 b.length hblt]
        rw [if_neg (by rw [List.length_append]; omega)]
        rw [List.take_left, List.drop_left, ih tail h2, ok_bind']

theorem pack_multi_files_unpack (blobs : List Bytes) (out : Bytes)
    (h : pack_multi_files blobs = .ok out) : unpack_multi_files out = .ok blobs := by
  rw [pack_multi_files_def] at h
  rcases h1 : toBytes? 4 blobs.length with s | cnt
  · rw [h1, error_bind'] at h
    cases h
  · rw [h1, ok_bind'] at h
    obtain ⟨hclt, rfl⟩ := toBytes?_ok 4 blobs.length cnt h1
    rcases h2 : packEntries blobs with s | rest
    · rw [h2, error_bind'] at h
      cases h
    · rw [h2, ok_bind'] at h
      cases h
      have hl4 : (toBytesBE 4 blobs.length).length = 4 := toBytesBE_length 4 _
      unfold unpack_multi_files
      rw [if_neg (by rw [List.length_append, hl4]; omega)]
      rw [List.take_left' hl4, List.drop_left' hl4,
        fromBytesBE_toBytesBE 4 blobs.length hclt]
      exact packEntries_ok_unpack blobs rest h2

theorem packEntries_truncated :
    ∀ (blobs : List Bytes) (out : Bytes), packEntries blobs = .ok out →
      ∀ j, j < out.length →
        unpackEntriesAux blobs.length (out.take j) = .error "bad files blob" := by
  intro blobs
  induction blobs with
  | nil =>
    intro out h j hj
    cases h
    simp at hj
  | cons b bs ih =>
    intro out h j hj
    rw [packEntries_cons] at h
    rcases h1 : toBytes? 4 b.length with s | l
    · rw [h1, error_bind'] at h
      cases h
    · rw [h1, ok_bind'] at h
      obtain ⟨hblt, rfl⟩ := toBytes?_ok 4 b.length l h1
      rcases h2 : packEntries bs with s | tail
      · rw [h2, error_bind'] at h
        cases h
      · rw [h2, ok_bind'] at h
        cases h
        have hl4 : (toBytesBE 4 b.length).length = 4 := toBytesBE_length 4 _
        simp only [List.length_append, hl4] at hj
        show unpackEntriesAux (bs.length + 1) ((toBytesBE 4 b.length ++ b ++ tail).take j) = _
        rw [List.append_assoc]
        by_cases hj4 : j < 4
        · rw [unpackEntriesAux_succ]
          rw [if_pos (by rw [List.length_take, List.length_append, hl4]; omega)]
        · push_neg at hj4
          have hT : (toBytesBE 4 b.length ++ (b ++ tail)).take j =
              toBytesBE 4 b.length ++ (b ++ tail).take (j - 4) := by
            rw [List.take_append_eq_append_take, hl4,
              List.take_of_length_le (by rw [hl4]; omega)]
          rw [hT, unpackEntriesAux_succ]
          rw [if_neg (by rw [List.length_append, hl4]; omega)]
          rw [List.take_left' hl4, List.drop_left' hl4,
            fromBytesBE_toBytesBE 4 b.length hblt]
          by_cases hjb : j - 4 < b.length
          · rw [if_pos (by rw [List.length_take, List.length_append]; omega)]
          · push_neg at hjb
            rw [if_neg (by rw [List.length_take, List.length_append]; omega)]
            have hsplit : (b ++ tail).take (j - 4) = b ++ tail.take (j - 4 - b.length) := by
              rw [List.take_append_eq_append_take, List.take_of_length_le hjb]
            rw [hsplit, List.take_left, List.drop_left]
            rw [ih tail h2 (j - 4 - b.length) (by omega)]
            rfl

theorem pack_multi_files_truncated (blobs : List Bytes) (out : Bytes)
    (h : pack_multi_files blobs = .ok out) :
    ∀ j, j < out.length → unpack_multi_files (out.take j) = .error "bad files blob" := by
  intro j hj
  rw [pack_multi_files_def] at h
  rcases h1 : toBytes? 4 blobs.length with s | cnt
  · rw [h1, error_bind'] at h
    cases h
  · rw [h1, ok_bind'] at h
    obtain ⟨hclt, rfl⟩ := toBytes?_ok 4 blobs.length cnt h1
    rcases h2 : packEntries blobs with s | rest
    · rw [h2, error_bind'] at h
      cases h
    · rw [h2, ok_bind'] at h
      cases h
      have hl4 : (toBytesBE 4 blobs.length).length = 4 := toBytesBE_length 4 _
      simp only [List.length_append, hl4] at hj
      by_cases hj4 : j < 4
      · unfold unpack_multi_files
        rw [if_pos (by rw [List.length_take, List.length_append, hl4]; omega)]
      · push_neg at hj4
        have hT : (toBytesBE 4 blobs.length ++ rest).take j =
            toBytesBE 4 blobs.length ++ rest.take (j - 4) := by
          rw [List.take_append_eq_append_take, hl4,
            List.take_of_length_le (by rw [hl4]; omega)]
        rw [hT]
        unfold unpack_multi_files
        rw [if_neg (by rw [List.length_append, List.length_take, hl4]; omega)]
        rw [List.take_left' hl4, List.drop_left' hl4,
          fromBytesBE_toBytesBE 4 blobs.length hclt]
        exact packEntries_truncated blobs rest h2 (j - 4) (by omega)

/-! ### Header-length overrun in unpack_pickle_bin -/

theorem unpack_pickle_bin_header_overrun {α : Type} (loads : Bytes → Except String α)
    (packet : Bytes) (h4 : 4 ≤ packet.length)
    (hov : packet.length < 4 + fromBytesBE (packet.take 4)) :
    ∃ err, unpack_pickle_bin loads packet = .error err := by
  rw [unpack_pickle_bin_def]
  have ht4 : unpackU32 (packet.take 4) = .ok (fromBytesBE (packet.take 4)) := by
    simp only [unpackU32]
    rw [if_pos (by rw [List.length_take]; omega)]
  rw [ht4, ok_bind']
  rcases hl : loads ((packet.drop 4).take (fromBytesBE (packet.take 4))) with s | hd
  · exact ⟨s, by rw [error_bind']⟩
  · refine ⟨"struct.error", ?_⟩
    rw [ok_bind']
    have hz : unpackU32 ((packet.drop (4 + fromBytesBE (packet.take 4))).take 4) =
        .error "struct.error" := by
      simp only [unpackU32]
      rw [if_neg (by rw [List.length_take, List.length_drop]; omega)]
    rw [hz, error_bind']

/-! ## The claims -/

/-- C1 (amended): for every key pair produced by `generate_keypair` from prime
draws, every byte string `data`, every mode and every random stream,
`decrypt_bytes (encrypt_bytes data pub mode) priv mode = data` — provided the
modulus is large enough for the block format (`plain_block ≥ 8`, i.e. the
`"RSA modulus too small"` guard does not fire) and `k` fits the 2-byte length
prefix (`k ≤ 65535`). -/
theorem C1_roundtrip_amended (e : Nat) (draws : List (Nat × Nat)) (pub : PublicKey)
    (priv : PrivateKey) (mode : String) (data : Bytes) (rnds : Nat → Fin 255)
    (hprime : ∀ pq ∈ draws, Nat.Prime pq.1 ∧ Nat.Prime pq.2)
    (hgen : generate_keypair_from e draws = .ok (pub, priv))
    (h8 : 8 ≤ mod_bytes pub.n - 1) (hk16 : mod_bytes pub.n ≤ 65535)
    (hmode : mode = "raw_fixed" ∨ mode = "raw_len" ∨ mode = "rand_fixed" ∨ mode = "rand_len")
    (hdata : ∀ x ∈ data, x < 256) :
    (encrypt_bytes data pub mode rnds).bind (fun ct => decrypt_bytes ct priv mode) =
      .ok data := by
  obtain ⟨p, q, hmem, hp, hq, hpq, hpubn, hprivn, hpube, hphi, hdlt, hed⟩ :=
    generate_keypair_ok e draws pub priv hprime hgen
  have hpubeta : pub = ⟨p * q, e⟩ := by
    have h0 : pub = ⟨pub.n, pub.e⟩ := rfl
    rw [h0, hpubn, hpube]
  have hpriveta : priv = ⟨p * q, priv.d⟩ := by
    have h0 : priv = ⟨priv.n, priv.d⟩ := rfl
    rw [h0, hprivn]
  rw [hpubeta, hpriveta]
  exact encrypt_then_decrypt p q e priv.d mode data rnds hp hq hpq hed
    (hpubn ▸ h8) (hpubn ▸ hk16) hmode hdata

/-- C1 counterexample: the claim fails as stated, without a modulus-size
hypothesis.  `generate_keypair` can return the valid key pair built from the
distinct primes 32771 and 32779 (`n` has 31 bits, so `k = 4` and
`plain_block = 3 < 8`), and for that pair `encrypt_bytes` raises
`"RSA modulus too small"`, so the round trip does not return the input. -/
theorem C1_roundtrip_counterexample :
    Nat.Prime 32771 ∧ Nat.Prime 32779 ∧
    generate_keypair_from 65537 [(32771, 32779)] =
      .ok (⟨1074200609, 65537⟩, ⟨1074200609, 489955193⟩) ∧
    (encrypt_bytes [0] ⟨1074200609, 65537⟩ "raw_fixed" (constRnd 0)).bind
        (fun ct => decrypt_bytes ct ⟨1074200609, 489955193⟩ "raw_fixed") ≠ .ok [0] :=
  ⟨by norm_num, by norm_num, by decide, by decide⟩

/-- C1 witness: the amended round trip at the key pair generated from the
primes 4687500001 and 4782969001 (`k = 9`, `plain_block = 8`), on the bytes
of `"hello"` in mode `rand_len` with nonce draw 41. -/
theorem C1_roundtrip_amended_witness :
    (encrypt_bytes [104, 101, 108, 108, 111] ⟨22420167196970469001, 65537⟩ "rand_len"
        (constRnd 41)).bind
      (fun ct => decrypt_bytes ct ⟨22420167196970469001, 12585836257810473473⟩ "rand_len") =
      .ok [104, 101, 108, 108, 111] :=
  C1_roundtrip_amended 65537 [(4687500001, 4782969001)] ⟨22420167196970469001, 65537⟩
    ⟨22420167196970469001, 12585836257810473473⟩ "rand_len" [104, 101, 108, 108, 111]
    (constRnd 41)
    (by
      intro pq hpq
      rw [List.mem_singleton] at hpq
      subst hpq
      exact ⟨prime_4687500001, prime_4782969001⟩)
    (by decide) (by decide) (by decide)
    (Or.inr (Or.inr (Or.inr rfl))) (by decide)

/-- C2 (amended): for every public key whose `plain_block` is at least 8 and
every mode, `encrypt_bytes` of the empty byte string returns the EMPTY byte
string — zero blocks, not one: the `while i < len(data)` loop body never
runs. -/
theorem C2_empty_encoding_amended (n e : Nat) (mode : String) (rnds : Nat → Fin 255)
    (h8 : 8 ≤ mod_bytes n - 1)
    (hmode : mode = "raw_fixed" ∨ mode = "raw_len" ∨ mode = "rand_fixed" ∨ mode = "rand_len") :
    encrypt_bytes [] ⟨n, e⟩ mode rnds = .ok [] :=
  encrypt_bytes_empty n e mode rnds h8 hmode

/-- C2 counterexample: with the 80-bit modulus `2^80 - 1` (`k = 10`),
encrypting the empty string yields 0 bytes, not one `k`-byte block and not
one `2 + k`-byte length-prefixed block. -/
theorem C2_empty_input_counterexample :
    encrypt_bytes [] ⟨1208925819614629174706175, 3⟩ "raw_fixed" (constRnd 0) = .ok [] ∧
    ([] : Bytes).length ≠ mod_bytes 1208925819614629174706175 ∧
    ([] : Bytes).length ≠ 2 + mod_bytes 1208925819614629174706175 :=
  ⟨by decide, by decide, by decide⟩

/-- C2 witness: the amended statement at the modulus `2^80 - 1` in mode
`rand_len`. -/
theorem C2_empty_encoding_amended_witness :
    encrypt_bytes [] ⟨1208925819614629174706175, 3⟩ "rand_len" (constRnd 0) = .ok [] :=
  C2_empty_encoding_amended 1208925819614629174706175 3 "rand_len" (constRnd 0)
    (by decide) (Or.inr (Or.inr (Or.inr rfl)))

/-- C3: `decrypt_bytes` rejects bad framing: (a) in the fixed modes an input
whose length is not a multiple of `k` fails with
`"cipher length not aligned"`; (b) in every mode, if some parsed block
decrypts to a padded plaintext whose declared 2-byte length exceeds the
mode's `payload_cap` (`plain_block - 3` in rand modes, `plain_block - 2`
otherwise), `decrypt_bytes` does not return any output (`L < 0` is
impossible for the unsigned `int.from_bytes`). -/
theorem C3_decrypt_rejections :
    (∀ (ct : Bytes) (priv : PrivateKey) (mode : String),
      (mode = "raw_fixed" ∨ mode = "rand_fixed") → mod_bytes priv.n ≠ 0 →
      ct.length % mod_bytes priv.n ≠ 0 →
      decrypt_bytes ct priv mode = .error "cipher length not aligned") ∧
    (∀ (data : Bytes) (priv : PrivateKey) (mode : String) (blocks : List Bytes)
        (b : Bytes) (m : Nat) (pbytes : Bytes),
      parseBlocks data (mod_bytes priv.n) mode = .ok blocks → b ∈ blocks →
      rsa_decrypt_int (fromBytesBE b) priv = .ok m →
      toBytes? (mod_bytes priv.n - 1) m = .ok pbytes →
      (if mode_rand mode then mod_bytes priv.n - 1 - 3 else mod_bytes priv.n - 1 - 2) <
        fromBytesBE (pbytes.take 2) →
      ∀ out, decrypt_bytes data priv mode ≠ .ok out) := by
  constructor
  · exact fun ct priv mode hm hk0 hal => decrypt_bytes_fixed_misaligned ct priv mode hm hk0 hal
  · intro data priv mode blocks b m pbytes hparse hmem hdec htb hcap out
    exact decrypt_bytes_not_ok_of_bad_block data priv mode blocks b hparse hmem
      (decBlock_rejects priv (mod_bytes priv.n - 1) (mode_rand mode) b m pbytes hdec htb hcap)
      out

/-- C3 witness: (a) one byte against the modulus 1000 (`k = 2`) is
misaligned; (b) against the modulus `2^80 - 1` with `d = 1`, the 10-byte
cipher block decoding to a plaintext whose first two bytes declare length
65535 (`> payload_cap = 7`) is rejected. -/
theorem C3_decrypt_rejections_witness :
    decrypt_bytes [0] ⟨1000, 3⟩ "raw_fixed" = .error "cipher length not aligned" ∧
    decrypt_bytes [0, 255, 255, 0, 0, 0, 0, 0, 0, 0] ⟨1208925819614629174706175, 1⟩
      "raw_fixed" ≠ .ok [] :=
  ⟨C3_decrypt_rejections.1 [0] ⟨1000, 3⟩ "raw_fixed" (Or.inl rfl) (by decide) (by decide),
   C3_decrypt_rejections.2 [0, 255, 255, 0, 0, 0, 0, 0, 0, 0] ⟨1208925819614629174706175, 1⟩
     "raw_fixed" [[0, 255, 255, 0, 0, 0, 0, 0, 0, 0]] [0, 255, 255, 0, 0, 0, 0, 0, 0, 0]
     4722294425275607285760 [255, 255, 0, 0, 0, 0, 0, 0, 0]
     (by decide) (by decide) (by decide) (by decide) (by decide) []⟩

/-- C4: every key pair returned by `generate_keypair` (over prime draws)
satisfies `n = p * q` with `p ≠ q`, `pub.n = priv.n`, `pub.e = e`,
`0 ≤ d < (p-1)(q-1)` and `(e * d) mod (p-1)(q-1) = 1`; draws with `p = q` or
with `(p-1)(q-1)` divisible by `e` are skipped and the generator moves on to
the next draw. -/
theorem C4_generate_keypair_valid :
    (∀ (e : Nat) (draws : List (Nat × Nat)) (pub : PublicKey) (priv : PrivateKey),
      (∀ pq ∈ draws, Nat.Prime pq.1 ∧ Nat.Prime pq.2) →
      generate_keypair_from e draws = .ok (pub, priv) →
      ∃ p q, (p, q) ∈ draws ∧ Nat.Prime p ∧ Nat.Prime q ∧ p ≠ q ∧
        pub.n = p * q ∧ priv.n = p * q ∧ pub.e = e ∧
        ((p - 1) * (q - 1)) % e ≠ 0 ∧
        priv.d < (p - 1) * (q - 1) ∧ (e * priv.d) % ((p - 1) * (q - 1)) = 1) ∧
    (∀ (e p : Nat) (rest : List (Nat × Nat)),
      generate_keypair_from e ((p, p) :: rest) = generate_keypair_from e rest) ∧
    (∀ (e p q : Nat) (rest : List (Nat × Nat)), ((p - 1) * (q - 1)) % e = 0 →
      generate_keypair_from e ((p, q) :: rest) = generate_keypair_from e rest) :=
  ⟨generate_keypair_ok, generate_keypair_reject_eq, generate_keypair_reject_phi⟩

/-- C4 witness: with `e = 3`, the draw `(2, 2)` is rejected (`p = q`), the
draw `(2, 7)` is rejected (`(p-1)(q-1) = 6` divisible by 3), and the draw
`(3, 5)` yields the valid pair `n = 15`, `d = 3`. -/
theorem C4_generate_keypair_valid_witness :
    (∃ p q, (p, q) ∈ [(2, 2), (3, 5)] ∧ Nat.Prime p ∧ Nat.Prime q ∧ p ≠ q ∧
      (15 : Nat) = p * q ∧ (15 : Nat) = p * q ∧ (3 : Nat) = 3 ∧
      ((p - 1) * (q - 1)) % 3 ≠ 0 ∧
      (3 : Nat) < (p - 1) * (q - 1) ∧ (3 * 3) % ((p - 1) * (q - 1)) = 1) ∧
    generate_keypair_from 3 [(2, 2), (3, 5)] = generate_keypair_from 3 [(3, 5)] ∧
    generate_keypair_from 3 [(2, 7), (3, 5)] = generate_keypair_from 3 [(3, 5)] :=
  ⟨C4_generate_keypair_valid.1 3 [(2, 2), (3, 5)] ⟨15, 3⟩ ⟨15, 3⟩ (by decide) (by decide),
   C4_generate_keypair_valid.2.1 3 2 [(3, 5)],
   C4_generate_keypair_valid.2.2 3 2 7 [(3, 5)] (by decide)⟩

/-- C5: for a fixed public key and mode (with `plain_block ≥ 8` and
`k ≤ 65535`), a buffer of exactly `payload_cap` bytes encrypts to exactly
one cipher block, and a buffer of `payload_cap + 1` bytes to exactly two,
the second encoding the single remaining payload byte (so its declared
2-byte length field is 1). -/
theorem C5_block_sizing (n e : Nat) (mode : String) (rnds : Nat → Fin 255)
    (data data2 : Bytes)
    (h8 : 8 ≤ mod_bytes n - 1) (hk16 : mod_bytes n ≤ 65535)
    (hmode : mode = "raw_fixed" ∨ mode = "raw_len" ∨ mode = "rand_fixed" ∨ mode = "rand_len")
    (hbytes : ∀ x ∈ data, x < 256) (hbytes2 : ∀ x ∈ data2, x < 256)
    (hlen : data.length = payload_cap n mode)
    (hlen2 : data2.length = payload_cap n mode + 1) :
    encrypt_bytes data ⟨n, e⟩ mode rnds =
      .ok ((if mode_len mode then toBytesBE 2 (mod_bytes n) else []) ++
        cipherBlockOf n e (mod_bytes n) (mod_bytes n - 1) (mode_rand mode)
          ((rnds 0).val + 1) data) ∧
    encrypt_bytes data2 ⟨n, e⟩ mode rnds =
      .ok (((if mode_len mode then toBytesBE 2 (mod_bytes n) else []) ++
          cipherBlockOf n e (mod_bytes n) (mod_bytes n - 1) (mode_rand mode)
            ((rnds 0).val + 1) (data2.take (payload_cap n mode))) ++
        ((if mode_len mode then toBytesBE 2 (mod_bytes n) else []) ++
          cipherBlockOf n e (mod_bytes n) (mod_bytes n - 1) (mode_rand mode)
            ((rnds 1).val + 1) (data2.drop (payload_cap n mode)))) ∧
    (data2.drop (payload_cap n mode)).length = 1 := by
  have hk0 : ¬ (mod_bytes n - 1 < 8) := by omega
  rcases hmode with hm | hm | hm | hm <;> subst hm
  · have hcap : payload_cap n "raw_fixed" = mod_bytes n - 1 - 2 := by
      simp only [payload_cap]
      rw [if_neg (by decide)]
    have hml : mode_len "raw_fixed" = false := by decide
    have hmr : mode_rand "raw_fixed" = false := by decide
    rw [hcap] at hlen hlen2
    rw [hcap, hml, hmr]
    refine ⟨?_, ?_, ?_⟩
    · rw [encrypt_bytes_raw_fixed data n e rnds hk0]
      exact encrypt_one_chunk n e (mod_bytes n) (mod_bytes n - 1) (mod_bytes n - 1 - 2)
        false false rnds 0 data rfl rfl h8 hk16 (by simp) hlen hbytes
    · cases data2 with
      | nil => rw [List.length_nil] at hlen2; omega
      | cons c t =>
        rw [encrypt_bytes_raw_fixed (c :: t) n e rnds hk0]
        exact encrypt_chunk_pair n e (mod_bytes n) (mod_bytes n - 1) (mod_bytes n - 1 - 2)
          false false rnds 0 c t rfl rfl h8 hk16 (by simp) hlen2 hbytes2
    · rw [List.length_drop]
      omega
  · have hcap : payload_cap n "raw_len" = mod_bytes n - 1 - 2 := by
      simp only [payload_cap]
      rw [if_neg (by decide)]
    have hml : mode_len "raw_len" = true := by decide
    have hmr : mode_rand "raw_len" = false := by decide
    rw [hcap] at hlen hlen2
    rw [hcap, hml, hmr]
    refine ⟨?_, ?_, ?_⟩
    · rw [encrypt_bytes_raw_len data n e rnds hk0]
      exact encrypt_one_chunk n e (mod_bytes n) (mod_bytes n - 1) (mod_bytes n - 1 - 2)
        false true rnds 0 data rfl rfl h8 hk16 (by simp) hlen hbytes
    · cases data2 with
      | nil => rw [List.length_nil] at hlen2; omega
      | cons c t =>
        rw [encrypt_bytes_raw_len (c :: t) n e rnds hk0]
        exact encrypt_chunk_pair n e (mod_bytes n) (mod_bytes n - 1) (mod_bytes n - 1 - 2)
          false true rnds 0 c t rfl rfl h8 hk16 (by simp) hlen2 hbytes2
    · rw [List.length_drop]
      omega
  · have hcap : payload_cap n "rand_fixed" = mod_bytes n - 1 - 3 := by
      simp [payload_cap]
    have hml : mode_len "rand_fixed" = false := by decide
    have hmr : mode_rand "rand_fixed" = true := by decide
    rw [hcap] at hlen hlen2
    rw [hcap, hml, hmr]
    refine ⟨?_, ?_, ?_⟩
    · rw [encrypt_bytes_rand_fixed data n e rnds hk0]
      exact encrypt_one_chunk n e (mod_bytes n) (mod_bytes n - 1) (mod_bytes n - 1 - 3)
        true false rnds 0 data rfl rfl h8 hk16 (by simp) hlen hbytes
    · cases data2 with
      | nil => rw [List.length_nil] at hlen2; omega
      | cons c t =>
        rw [encrypt_bytes_rand_fixed (c :: t) n e rnds hk0]
        exact encrypt_chunk_pair n e (mod_bytes n) (mod_bytes n - 1) (mod_bytes n - 1 - 3)
          true false rnds 0 c t rfl rfl h8 hk16 (by simp) hlen2 hbytes2
    · rw [List.length_drop]
      omega
  · have hcap : payload_cap n "rand_len" = mod_bytes n - 1 - 3 := by
      simp [payload_cap]
    have hml : mode_len "rand_len" = true := by decide
    have hmr : mode_rand "rand_len" = true := by decide
    rw [hcap] at hlen hlen2
    rw [hcap, hml, hmr]
    refine ⟨?_, ?_, ?_⟩
    · rw [encrypt_bytes_rand_len data n e rnds hk0]
      exact encrypt_one_chunk n e (mod_bytes n) (mod_bytes n - 1) (mod_bytes n - 1 - 3)
        true true rnds 0 data rfl rfl h8 hk16 (by simp) hlen hbytes
    · cases data2 with
      | nil => rw [List.length_nil] at hlen2; omega
      | cons c t =>
        rw [encrypt_bytes_rand_len (c :: t) n e rnds hk0]
        exact encrypt_chunk_pair n e (mod_bytes n) (mod_bytes n - 1) (mod_bytes n - 1 - 3)
          true true rnds 0 c t rfl rfl h8 hk16 (by simp) hlen2 hbytes2
    · rw [List.length_drop]
      omega

/-- C5 witness: with the modulus `2^80 - 1` (`k = 10`, `payload_cap = 7` in
`raw_fixed`), seven bytes make one block and eight bytes make two, the
second carrying the single byte 8. -/
theorem C5_block_sizing_witness :
    encrypt_bytes [1, 2, 3, 4, 5, 6, 7] ⟨1208925819614629174706175, 3⟩ "raw_fixed"
        (constRnd 0) =
      .ok (cipherBlockOf 1208925819614629174706175 3 10 9 false 1 [1, 2, 3, 4, 5, 6, 7]) ∧
    encrypt_bytes [1, 2, 3, 4, 5, 6, 7, 8] ⟨1208925819614629174706175, 3⟩ "raw_fixed"
        (constRnd 0) =
      .ok (cipherBlockOf 1208925819614629174706175 3 10 9 false 1 [1, 2, 3, 4, 5, 6, 7] ++
        cipherBlockOf 1208925819614629174706175 3 10 9 false 1 [8]) ∧
    (([1, 2, 3, 4, 5, 6, 7, 8] : Bytes).drop 7).length = 1 :=
  C5_block_sizing 1208925819614629174706175 3 "raw_fixed" (constRnd 0)
    [1, 2, 3, 4, 5, 6, 7] [1, 2, 3, 4, 5, 6, 7, 8]
    (by decide) (by decide) (Or.inl rfl) (by decide) (by decide) (by decide) (by decide)

/-- C6 (amended): when the declared 4-byte HEADER length overruns the buffer,
`unpack_pickle_bin` fails (the header slice clamps, but the payload-length
read then sees fewer than 4 bytes and `struct.unpack` raises); the declared
payload length, by contrast, is NOT checked — Python slice clamping silently
truncates (see the counterexample). -/
theorem C6_unpack_header_overrun_amended {α : Type} (loads : Bytes → Except String α)
    (packet : Bytes) (h4 : 4 ≤ packet.length)
    (hov : packet.length < 4 + fromBytesBE (packet.take 4)) :
    ∃ err, unpack_pickle_bin loads packet = .error err :=
  unpack_pickle_bin_header_overrun loads packet h4 hov

/-- C6 counterexample: a packet whose declared payload length 5 overruns the
single remaining byte is NOT rejected: `unpack_pickle_bin` returns the
truncated payload `[9]`. -/
theorem C6_payload_overrun_counterexample :
    unpack_pickle_bin (fun bs => (.ok (fromBytesBE bs) : Except String Nat))
      [0, 0, 0, 1, 7, 0, 0, 0, 5, 9] = .ok (7, [9]) ∧
    ([0, 0, 0, 1, 7, 0, 0, 0, 5, 9] : Bytes).length < 4 + 1 + 4 + 5 :=
  ⟨by decide, by decide⟩

/-- C6 witness: a 5-byte packet declaring a 9-byte header fails. -/
theorem C6_unpack_header_overrun_amended_witness :
    ∃ err, unpack_pickle_bin (fun bs => (.ok bs : Except String Bytes)) [0, 0, 0, 9, 1] =
      .error err :=
  C6_unpack_header_overrun_amended (fun bs => (.ok bs : Except String Bytes)) [0, 0, 0, 9, 1]
    (by decide) (by decide)

/-- C7: unpacking a packed multi-file blob returns the same buffers in the
same order; packing the empty list yields exactly the 4 zero count bytes;
and unpacking any strict prefix (truncation of an entry, or a count that the
remaining bytes cannot satisfy) fails with `"bad files blob"`. -/
theorem C7_multi_files_roundtrip :
    (∀ (blobs : List Bytes) (out : Bytes), pack_multi_files blobs = .ok out →
      unpack_multi_files out = .ok blobs) ∧
    pack_multi_files [] = .ok [0, 0, 0, 0] ∧
    (∀ (blobs : List Bytes) (out : Bytes), pack_multi_files blobs = .ok out →
      ∀ j, j < out.length → unpack_multi_files (out.take j) = .error "bad files blob") :=
  ⟨pack_multi_files_unpack, rfl, pack_multi_files_truncated⟩

/-- C7 witness: the three buffers `[]`, `[9]`, `[8, 8]` round-trip, and the
19-byte packet truncated to 17 bytes is rejected. -/
theorem C7_multi_files_roundtrip_witness :
    unpack_multi_files [0, 0, 0, 3, 0, 0, 0, 0, 0, 0, 0, 1, 9, 0, 0, 0, 2, 8, 8] =
      .ok [[], [9], [8, 8]] ∧
    pack_multi_files [] = .ok [0, 0, 0, 0] ∧
    unpack_multi_files (([0, 0, 0, 3, 0, 0, 0, 0, 0, 0, 0, 1, 9, 0, 0, 0, 2, 8, 8] :
      Bytes).take 17) = .error "bad files blob" :=
  ⟨C7_multi_files_roundtrip.1 [[], [9], [8, 8]]
     [0, 0, 0, 3, 0, 0, 0, 0, 0, 0, 0, 1, 9, 0, 0, 0, 2, 8, 8] (by decide),
   C7_multi_files_roundtrip.2.1,
   C7_multi_files_roundtrip.2.2 [[], [9], [8, 8]]
     [0, 0, 0, 3, 0, 0, 0, 0, 0, 0, 0, 1, 9, 0, 0, 0, 2, 8, 8] (by decide) 17 (by decide)⟩

/-- C8: on a connection whose first frame is not of type `"hello"`, both
`serve` and `serve_upload` reply with the single plaintext frame
`{ok: false, error: "expected hello"}` and never attempt a decrypt on that
connection. -/
theorem C8_non_hello_rejected (mode : String) (priv : PrivateKey) (myPub : PublicKey)
    (loads : Bytes → Except String WireMsg) (dumps : WireMsg → Bytes)
    (handle : WireMsg → Except String WireMsg)
    (uploadHandle : WireMsg → Bytes → Except String WireMsg)
    (rnds : Nat → Fin 255) (first : WireMsg) (second : Bytes)
    (h : getField first "type" ≠ some (.str "hello")) :
    serveConn mode priv myPub loads dumps handle rnds first second =
        [.sentPlain expectedHelloErr] ∧
    serveUploadConn mode priv myPub loads dumps uploadHandle rnds first second =
        [.sentPlain expectedHelloErr] ∧
    ServeEvent.decrypted ∉ serveConn mode priv myPub loads dumps handle rnds first second ∧
    ServeEvent.decrypted ∉
      serveUploadConn mode priv myPub loads dumps uploadHandle rnds first second := by
  have h1 : serveConn mode priv myPub loads dumps handle rnds first second =
      [.sentPlain expectedHelloErr] := by
    unfold serveConn
    rw [if_pos h]
  have h2 : serveUploadConn mode priv myPub loads dumps uploadHandle rnds first second =
      [.sentPlain expectedHelloErr] := by
    unfold serveUploadConn
    rw [if_pos h]
  refine ⟨h1, h2, ?_, ?_⟩
  · rw [h1]
    simp
  · rw [h2]
    simp

/-- C8 witness: a first frame `{type: "ping"}`. -/
theorem C8_non_hello_rejected_witness :
    serveConn "raw_fixed" ⟨1, 1⟩ ⟨1, 1⟩ (fun _ => .error "x") (fun _ => [])
        (fun _ => .error "x") (constRnd 0) [("type", .str "ping")] [] =
      [.sentPlain expectedHelloErr] ∧
    serveUploadConn "raw_fixed" ⟨1, 1⟩ ⟨1, 1⟩ (fun _ => .error "x") (fun _ => [])
        (fun _ _ => .error "x") (constRnd 0) [("type", .str "ping")] [] =
      [.sentPlain expectedHelloErr] ∧
    ServeEvent.decrypted ∉ serveConn "raw_fixed" ⟨1, 1⟩ ⟨1, 1⟩ (fun _ => .error "x")
      (fun _ => []) (fun _ => .error "x") (constRnd 0) [("type", .str "ping")] [] ∧
    ServeEvent.decrypted ∉ serveUploadConn "raw_fixed" ⟨1, 1⟩ ⟨1, 1⟩ (fun _ => .error "x")
      (fun _ => []) (fun _ _ => .error "x") (constRnd 0) [("type", .str "ping")] [] :=
  C8_non_hello_rejected "raw_fixed" ⟨1, 1⟩ ⟨1, 1⟩ (fun _ => .error "x") (fun _ => [])
    (fun _ => .error "x") (fun _ _ => .error "x") (constRnd 0)
    [("type", .str "ping")] [] (by decide)

/-- C9: the raw modes are deterministic — the output of `encrypt_bytes` in
`raw_fixed` and `raw_len` does not depend on the random stream, so two
invocations on the same data and key yield identical bytes. -/
theorem C9_raw_modes_deterministic (data : Bytes) (n e : Nat) (r1 r2 : Nat → Fin 255) :
    encrypt_bytes data ⟨n, e⟩ "raw_fixed" r1 = encrypt_bytes data ⟨n, e⟩ "raw_fixed" r2 ∧
    encrypt_bytes data ⟨n, e⟩ "raw_len" r1 = encrypt_bytes data ⟨n, e⟩ "raw_len" r2 := by
  by_cases h : mod_bytes n - 1 < 8
  · rw [encrypt_bytes_small data n e "raw_fixed" r1 h,
      encrypt_bytes_small data n e "raw_fixed" r2 h,
      encrypt_bytes_small data n e "raw_len" r1 h,
      encrypt_bytes_small data n e "raw_len" r2 h]
    exact ⟨rfl, rfl⟩
  · constructor
    · rw [encrypt_bytes_raw_fixed data n e r1 h, encrypt_bytes_raw_fixed data n e r2 h]
      exact encryptLoopAux_raw_rnds ⟨n, e⟩ (mod_bytes n) (mod_bytes n - 1)
        (mod_bytes n - 1 - 2) false (data.length + 1) 0 data r1 r2
    · rw [encrypt_bytes_raw_len data n e r1 h, encrypt_bytes_raw_len data n e r2 h]
      exact encryptLoopAux_raw_rnds ⟨n, e⟩ (mod_bytes n) (mod_bytes n - 1)
        (mod_bytes n - 1 - 2) true (data.length + 1) 0 data r1 r2

/-- C10: for every private key with a nonzero byte length `k` and every mode,
`decrypt_bytes` of the empty byte string succeeds with the empty byte string
(zero blocks decode to zero payload bytes). -/
theorem C10_decrypt_empty (n d : Nat) (mode : String)
    (hk0 : mod_bytes n ≠ 0)
    (hmode : mode = "raw_fixed" ∨ mode = "raw_len" ∨ mode = "rand_fixed" ∨ mode = "rand_len") :
    decrypt_bytes [] ⟨n, d⟩ mode = .ok [] :=
  decrypt_bytes_empty n d mode hk0 hmode

/-- C10 witness: the toy key `n = 6` in mode `raw_fixed`. -/
theorem C10_decrypt_empty_witness : decrypt_bytes [] ⟨6, 5⟩ "raw_fixed" = .ok [] :=
  C10_decrypt_empty 6 5 "raw_fixed" (by decide) (Or.inl rfl)

end App
